import Mathlib

/-!
Verification of the THEMA modeling core against its specification.

The definitions below are a shallow embedding of the Python sources
`src/modeling/model.py`, `src/modeling/tupper.py` and
`src/modeling/literals/data_utils.py`:

* Python insertion-ordered dictionaries are association lists
  (`List (key × value)`) with `alookup` / `dictInsert`.
* pandas/numpy floating point values are idealised as `ℚ`; the IEEE
  special values produced by the error-scoring path are modelled
  explicitly by the `EF` type (finite / +inf / -inf / NaN).
* Fallible Python code (exceptions such as KeyError, IndexError,
  AssertionError) is modelled with `Option` / `Except`.
* numpy string sorting (used by `np.intersect1d`) is code point
  lexicographic order, modelled by `lexLe` on the character list.
-/

namespace Thema

/-! ### Association lists with Python dict semantics -/

/-- Lookup in an association list (Python `d[k]`, first match). -/
def alookup {α β : Type} [DecidableEq α] (k : α) : List (α × β) → Option β
  | [] => none
  | (k₁, v) :: rest => if k₁ = k then some v else alookup k rest

/-- Python `d[k] = v`: replace the value in place if the key exists,
otherwise append the binding at the end (insertion order). -/
def dictInsert {α β : Type} [DecidableEq α] (k : α) (v : β) :
    List (α × β) → List (α × β)
  | [] => [(k, v)]
  | (k₁, v₁) :: rest =>
      if k₁ = k then (k₁, v) :: rest else (k₁, v₁) :: dictInsert k v rest

theorem alookup_dictInsert_self {α β : Type} [DecidableEq α] (k : α) (v : β)
    (l : List (α × β)) : alookup k (dictInsert k v l) = some v := by
  induction l with
  | nil => simp [dictInsert, alookup]
  | cons hd tl ih =>
      obtain ⟨k₁, v₁⟩ := hd
      by_cases h : k₁ = k <;> simp [dictInsert, alookup, h, ih]

theorem alookup_dictInsert_ne {α β : Type} [DecidableEq α] (k k₂ : α) (v : β)
    (l : List (α × β)) (h : k ≠ k₂) :
    alookup k₂ (dictInsert k v l) = alookup k₂ l := by
  induction l with
  | nil => simp [dictInsert, alookup, h]
  | cons hd tl ih =>
      obtain ⟨k₁, v₁⟩ := hd
      by_cases h₁ : k₁ = k
      · subst h₁; simp [dictInsert, alookup, h]
      · simp only [dictInsert, if_neg h₁]
        by_cases h₂ : k₁ = k₂ <;> simp [alookup, h₂, ih]

theorem dictInsert_eq_append {α β : Type} [DecidableEq α] (k : α) (v : β)
    (l : List (α × β)) (h : alookup k l = none) :
    dictInsert k v l = l ++ [(k, v)] := by
  induction l with
  | nil => simp [dictInsert]
  | cons hd tl ih =>
      obtain ⟨k₁, v₁⟩ := hd
      by_cases h₁ : k₁ = k
      · simp [alookup, h₁] at h
      · simp only [alookup, if_neg h₁] at h
        simp [dictInsert, h₁, ih h]

theorem alookup_append_left {α β : Type} [DecidableEq α] (k : α)
    (l₁ l₂ : List (α × β)) (h : (alookup k l₁).isSome) :
    alookup k (l₁ ++ l₂) = alookup k l₁ := by
  induction l₁ with
  | nil => simp [alookup] at h
  | cons hd tl ih =>
      obtain ⟨k₁, v₁⟩ := hd
      by_cases h₁ : k₁ = k
      · simp [alookup, h₁]
      · simp only [alookup, if_neg h₁] at h ⊢
        exact ih h

theorem alookup_append_right {α β : Type} [DecidableEq α] (k : α)
    (l₁ l₂ : List (α × β)) (h : alookup k l₁ = none) :
    alookup k (l₁ ++ l₂) = alookup k l₂ := by
  induction l₁ with
  | nil => simp
  | cons hd tl ih =>
      obtain ⟨k₁, v₁⟩ := hd
      by_cases h₁ : k₁ = k
      · simp [alookup, h₁] at h
      · simp only [alookup, if_neg h₁] at h ⊢
        exact ih h

theorem alookup_eq_none_iff {α β : Type} [DecidableEq α] (k : α)
    (l : List (α × β)) : alookup k l = none ↔ k ∉ l.map Prod.fst := by
  induction l with
  | nil => simp [alookup]
  | cons hd tl ih =>
      obtain ⟨k₁, v₁⟩ := hd
      by_cases h₁ : k₁ = k
      · subst h₁; simp [alookup]
      · have hne : ¬k = k₁ := fun h => h₁ h.symm
        simp [alookup, h₁, ih, hne]

theorem alookup_isSome_iff {α β : Type} [DecidableEq α] (k : α)
    (l : List (α × β)) : (alookup k l).isSome ↔ k ∈ l.map Prod.fst := by
  rw [← Option.ne_none_iff_isSome, ne_eq, alookup_eq_none_iff, not_not]

theorem alookup_mem {α β : Type} [DecidableEq α] (k : α) (v : β)
    (l : List (α × β)) (h : alookup k l = some v) : (k, v) ∈ l := by
  induction l with
  | nil => simp [alookup] at h
  | cons hd tl ih =>
      obtain ⟨k₁, v₁⟩ := hd
      by_cases h₁ : k₁ = k
      · subst h₁; simp [alookup] at h; simp [h]
      · simp only [alookup, if_neg h₁] at h
        exact List.mem_cons_of_mem _ (ih h)

theorem alookup_of_mem_nodup {α β : Type} [DecidableEq α] (k : α) (v : β)
    (l : List (α × β)) (hmem : (k, v) ∈ l) (hnd : (l.map Prod.fst).Nodup) :
    alookup k l = some v := by
  induction l with
  | nil => simp at hmem
  | cons hd tl ih =>
      obtain ⟨k₁, v₁⟩ := hd
      simp only [List.map_cons, List.nodup_cons] at hnd
      rcases List.mem_cons.mp hmem with h | h
      · rw [Prod.ext_iff] at h
        obtain ⟨h₂, h₃⟩ := h
        simp only at h₂ h₃
        subst h₂; subst h₃
        simp [alookup]
      · have hk : k₁ ≠ k := by
          intro he
          exact hnd.1 (List.mem_map.mpr ⟨(k, v), h, he.symm ▸ rfl⟩)
        simp only [alookup, if_neg hk]
        exact ih h hnd.2

/-! ### Rational helpers (idealised float arithmetic) -/

/-- pandas `Series.mean` over a non-empty series (division by zero for the
empty series is handled separately where NaN matters). -/
def qmean (l : List ℚ) : ℚ := l.sum / l.length

/-- Sample variance with `ddof = 1`, the square of the pandas `Series.std`.
Over a series of at least two rows the standard deviations of two columns
on the same row subset compare exactly as their sample variances compare,
so every comparison of standard deviations in the source is embedded as
the same comparison of `svar`.  On fewer than two rows pandas `std` is
`NaN`, which this rational value does not represent: every use is either
guarded by a `2 ≤ length` check from the source (`ratioTestB`) or by a
`2 ≤ length` hypothesis of the theorem (`C2_minimal_std_selection`). -/
def svar (l : List ℚ) : ℚ :=
  ((l.map (fun x => (x - qmean l) ^ 2)).sum) / ((l.length : ℚ) - 1)

theorem svar_nonneg (l : List ℚ) (h : 2 ≤ l.length) : 0 ≤ svar l := by
  unfold svar
  apply div_nonneg
  · apply List.sum_nonneg
    intro x hx
    obtain ⟨y, _, rfl⟩ := List.mem_map.mp hx
    positivity
  · have : (2 : ℚ) ≤ (l.length : ℚ) := by exact_mod_cast h
    linarith

/-- Round-half-to-even on `ℚ`, the rounding mode of `np.rint`. -/
def rhe (q : ℚ) : ℤ :=
  let f := ⌊q⌋
  let r := q - f
  if r < 1 / 2 then f
  else if 1 / 2 < r then f + 1
  else if f % 2 = 0 then f else f + 1

/-- `np.round(q, 2)`: scale by 100, round half to even, scale back. -/
def round2 (q : ℚ) : ℚ := (rhe (100 * q) : ℚ) / 100

theorem abs_rhe_sub_le (q : ℚ) : |(rhe q : ℚ) - q| ≤ 1 / 2 := by
  unfold rhe
  have hf : (⌊q⌋ : ℚ) ≤ q := Int.floor_le q
  have hf2 : q < (⌊q⌋ : ℚ) + 1 := Int.lt_floor_add_one q
  by_cases h1 : q - (⌊q⌋ : ℚ) < 1 / 2
  · rw [if_pos h1, abs_le]; constructor <;> linarith
  · rw [if_neg h1]
    by_cases h2 : 1 / 2 < q - (⌊q⌋ : ℚ)
    · rw [if_pos h2]
      push_cast
      rw [abs_le]; constructor <;> linarith
    · rw [if_neg h2]
      have he : q - (⌊q⌋ : ℚ) = 1 / 2 := le_antisymm (not_lt.mp h2) (not_lt.mp h1)
      by_cases h3 : ⌊q⌋ % 2 = 0
      · rw [if_pos h3, abs_le]; constructor <;> linarith
      · rw [if_neg h3]
        push_cast
        rw [abs_le]; constructor <;> linarith

theorem abs_round2_sub_le (q : ℚ) : |round2 q - q| ≤ 1 / 200 := by
  unfold round2
  have h := abs_rhe_sub_le (100 * q)
  have h100 : |((rhe (100 * q) : ℚ) - 100 * q) / 100| ≤ (1 / 2) / 100 := by
    rw [abs_div]
    simp only [abs_of_pos (show (0:ℚ) < 100 by norm_num)]
    exact div_le_div_of_nonneg_right h (by norm_num)
  calc |(rhe (100 * q) : ℚ) / 100 - q|
      = |((rhe (100 * q) : ℚ) - 100 * q) / 100| := by ring_nf
    _ ≤ (1 / 2) / 100 := h100
    _ = 1 / 200 := by norm_num

/-! ### Pickled artifacts and the filesystem

A pickle file either holds a plain value (the raw DataFrame) or a record
with string keys (the clean / projection / mapper artifacts).  `prim`
carries a tag so that distinct concrete artifacts can be told apart. -/

inductive PickleVal : Type where
  | prim (tag : ℕ) : PickleVal
  | record (fields : List (String × PickleVal)) : PickleVal

/-- The filesystem: a map from paths to the pickled value stored there.
A path is a file exactly when it is bound here (`os.path.isfile`). -/
abbrev FileSys := List (String × PickleVal)

/-- Field access on a loaded pickle; `none` models the KeyError or
TypeError raised when the artifact lacks the expected record shape. -/
def pickleField (v : PickleVal) (key : String) : Option PickleVal :=
  match v with
  | .prim _ => none
  | .record fields => alookup key fields

/-! ### Tupper (tupper.py) -/

/-- Outcome of a Tupper accessor.  `value` is a normal return,
`noneReturned` models the `except` branch that prints the diagnostic and
falls through (returning Python `None`), and `raised` models an uncaught
exception (the `assert` statements). -/
inductive AccessOutcome : Type where
  | value (v : PickleVal) : AccessOutcome
  | noneReturned (diag : String) : AccessOutcome
  | raised (msg : String) : AccessOutcome

def AccessOutcome.isRaised : AccessOutcome → Bool
  | .raised _ => true
  | _ => false

/-- State of a Tupper after `__init__`: the three stored paths.  The
constructor asserts that each path is a file, so a constructed Tupper
always has all three paths set; `Option` keeps the accessor-side
`assert self._raw` checks faithful. -/
structure TupperState : Type where
  rawPath : Option String
  cleanPath : Option String
  projectionPath : Option String

/-- `Tupper.__init__`: asserts `isfile` for the three paths, then stores
them. -/
def tupperInit (fs : FileSys) (raw clean projection : String) :
    Except String TupperState :=
  if (alookup raw fs).isNone then
    .error ("Invalid raw file path: " ++ raw)
  else if (alookup clean fs).isNone then
    .error ("Invalid clean file path: " ++ clean)
  else if (alookup projection fs).isNone then
    .error ("Invalid projection file path: " ++ projection)
  else
    .ok ⟨some raw, some clean, some projection⟩

def rawDiag : String :=
  "There was an error opening your raw data. Please make sure you have set your raw data reference to the correct pickle file."

def cleanDiag : String :=
  "There was an error opening your clean data Please make sure your have set your clean data reference to the correct pickle file."

def droppedDiag : String :=
  "There was an error opening your clean data. Please make sure you have set your clean data reference to the correct pickle file."

def projectionDiag : String :=
  "There was an error opening your projection data. Please make sure you have set your projection data reference to the correct pickle file."

def projectionParametersDiag : String :=
  "There was an error opening your hyperparameters. Please make sure you have set your projection data reference to the correct pickle file."

/-- `Tupper.raw`: assert the path is set, then try to unpickle the whole
file; any failure is swallowed into a printed diagnostic and `None`. -/
def tupperRaw (fs : FileSys) (st : TupperState) : AccessOutcome :=
  match st.rawPath with
  | none => .raised "Please Specify a valid path to raw data"
  | some p =>
      match alookup p fs with
      | none => .noneReturned rawDiag
      | some v => .value v

/-- `Tupper.clean`: unpickle and extract the key `clean_data`; both the
missing file and the missing key land in the same `except` branch. -/
def tupperClean (fs : FileSys) (st : TupperState) : AccessOutcome :=
  match st.cleanPath with
  | none => .raised "Please Specify a valid path to clean data"
  | some p =>
      match alookup p fs with
      | none => .noneReturned cleanDiag
      | some v =>
          match pickleField v "clean_data" with
          | none => .noneReturned cleanDiag
          | some d => .value d

/-- `Tupper.get_dropped_columns`: unpickle the clean file and extract the
key `dropped_columns`. -/
def tupperDroppedColumns (fs : FileSys) (st : TupperState) : AccessOutcome :=
  match st.cleanPath with
  | none => .raised "Please Specify a valid path to projected data"
  | some p =>
      match alookup p fs with
      | none => .noneReturned droppedDiag
      | some v =>
          match pickleField v "dropped_columns" with
          | none => .noneReturned droppedDiag
          | some d => .value d

/-- `Tupper.projection`: unpickle the projection file and extract the key
`projection`. -/
def tupperProjection (fs : FileSys) (st : TupperState) : AccessOutcome :=
  match st.projectionPath with
  | none => .raised "Please Specify a valid path to clean data"
  | some p =>
      match alookup p fs with
      | none => .noneReturned projectionDiag
      | some v =>
          match pickleField v "projection" with
          | none => .noneReturned projectionDiag
          | some d => .value d

/-- `Tupper.get_projection_parameters`: unpickle the projection file and
extract the key `hyperparameters`. -/
def tupperProjectionParameters (fs : FileSys) (st : TupperState) :
    AccessOutcome :=
  match st.projectionPath with
  | none => .raised "Please Specify a valid path to projected data"
  | some p =>
      match alookup p fs with
      | none => .noneReturned projectionParametersDiag
      | some v =>
          match pickleField v "hyperparameters" with
          | none => .noneReturned projectionParametersDiag
          | some d => .value d

/-- A clean artifact load fails when the file is missing or the loaded
value lacks the given key. -/
def loadFails (fs : FileSys) (p : String) (key : String) : Bool :=
  match alookup p fs with
  | none => true
  | some v => (pickleField v key).isNone

/-! ### Model construction and mapper-reading accessors (model.py) -/

/-- State of a Model after `__init__`: the mapper path, kept only when
`isfile` held at construction time, plus the hyperparameter cache. -/
structure ModelState : Type where
  mapperPath : Option String
  hyperCache : Option PickleVal

def mapperAssertMsg : String := "Please Specify a valid path to a mapper object"

/-- `Model.__init__`: never raises; silently keeps `_mapper = None` when
the path is not an existing file. -/
def modelInit (fs : FileSys) (mapper : String) : ModelState :=
  ⟨if (alookup mapper fs).isSome then some mapper else none, none⟩

/-- `Model.mapper`: assert the stored path, open and unpickle it, and
extract the key `mapper`.  Unlike the Tupper accessors there is no
try/except here, so load failures propagate (modelled by the error
cases after the assertion). -/
def modelMapper (fs : FileSys) (st : ModelState) : Except String PickleVal :=
  match st.mapperPath with
  | none => .error mapperAssertMsg
  | some p =>
      match alookup p fs with
      | none => .error "FileNotFoundError"
      | some v =>
          match pickleField v "mapper" with
          | none => .error "KeyError: mapper"
          | some m => .ok m

/-- `Model.complex`: attribute access on the loaded mapper. -/
def modelComplex (fs : FileSys) (st : ModelState) : Except String PickleVal :=
  (modelMapper fs st).bind fun m =>
    match pickleField m "complex" with
    | none => .error "AttributeError: complex"
    | some c => .ok c

/-- `Model.tupper`: attribute access on the loaded mapper. -/
def modelTupper (fs : FileSys) (st : ModelState) : Except String PickleVal :=
  (modelMapper fs st).bind fun m =>
    match pickleField m "tupper" with
    | none => .error "AttributeError: tupper"
    | some t => .ok t

/-- `Model.hyper_parameters`: serve the cache when set, otherwise assert
the stored path and unpickle the key `hyperparameters`. -/
def modelHyperParameters (fs : FileSys) (st : ModelState) :
    Except String PickleVal :=
  match st.hyperCache with
  | some h => .ok h
  | none =>
      match st.mapperPath with
      | none => .error mapperAssertMsg
      | some p =>
          match alookup p fs with
          | none => .error "FileNotFoundError"
          | some v =>
              match pickleField v "hyperparameters" with
              | none => .error "KeyError: hyperparameters"
              | some m => .ok m

/-! ### Claims C9 and C10 -/

/-- C9 (counterexample): with no file at the stored clean path, the
`Tupper.clean` accessor does not fail with a typed FileAccessError; it
prints a diagnostic and returns `None`.  The claim asserts the accessor
fails rather than returning a value, which is false at this input. -/
theorem C9_counterexample_clean_returns_none :
    tupperClean [] ⟨some "raw.pkl", some "clean.pkl", some "proj.pkl"⟩ =
      .noneReturned cleanDiag ∧
    (tupperClean [] ⟨some "raw.pkl", some "clean.pkl", some "proj.pkl"⟩).isRaised
      = false :=
  ⟨rfl, rfl⟩

/-- C9 (amended): every DataContainer accessor (raw, clean, dropped
columns, projection, projection hyperparameters), when the referenced
path does not exist or the loaded artifact lacks the expected key,
swallows the failure: it prints a diagnostic and returns `None` instead
of propagating a typed error. -/
theorem C9_accessors_swallow_load_failures (fs : FileSys)
    (pr pc pp : String)
    (h1 : alookup pr fs = none)
    (h2 : loadFails fs pc "clean_data" = true)
    (h3 : loadFails fs pc "dropped_columns" = true)
    (h4 : loadFails fs pp "projection" = true)
    (h5 : loadFails fs pp "hyperparameters" = true) :
    tupperRaw fs ⟨some pr, some pc, some pp⟩ = .noneReturned rawDiag ∧
    tupperClean fs ⟨some pr, some pc, some pp⟩ = .noneReturned cleanDiag ∧
    tupperDroppedColumns fs ⟨some pr, some pc, some pp⟩ =
      .noneReturned droppedDiag ∧
    tupperProjection fs ⟨some pr, some pc, some pp⟩ =
      .noneReturned projectionDiag ∧
    tupperProjectionParameters fs ⟨some pr, some pc, some pp⟩ =
      .noneReturned projectionParametersDiag := by
  refine ⟨?_, ?_, ?_, ?_, ?_⟩
  · simp [tupperRaw, h1]
  · unfold loadFails at h2
    unfold tupperClean
    cases hc : alookup pc fs with
    | none => simp [hc]
    | some v =>
        rw [hc] at h2
        simp only [Option.isNone_iff_eq_none] at h2
        simp [hc, h2]
  · unfold loadFails at h3
    unfold tupperDroppedColumns
    cases hc : alookup pc fs with
    | none => simp [hc]
    | some v =>
        rw [hc] at h3
        simp only [Option.isNone_iff_eq_none] at h3
        simp [hc, h3]
  · unfold loadFails at h4
    unfold tupperProjection
    cases hc : alookup pp fs with
    | none => simp [hc]
    | some v =>
        rw [hc] at h4
        simp only [Option.isNone_iff_eq_none] at h4
        simp [hc, h4]
  · unfold loadFails at h5
    unfold tupperProjectionParameters
    cases hc : alookup pp fs with
    | none => simp [hc]
    | some v =>
        rw [hc] at h5
        simp only [Option.isNone_iff_eq_none] at h5
        simp [hc, h5]

/-- Witness for `C9_accessors_swallow_load_failures` at an empty
filesystem. -/
theorem C9_accessors_swallow_load_failures_witness :
    tupperRaw [] ⟨some "r", some "c", some "p"⟩ = .noneReturned rawDiag ∧
    tupperClean [] ⟨some "r", some "c", some "p"⟩ = .noneReturned cleanDiag ∧
    tupperDroppedColumns [] ⟨some "r", some "c", some "p"⟩ =
      .noneReturned droppedDiag ∧
    tupperProjection [] ⟨some "r", some "c", some "p"⟩ =
      .noneReturned projectionDiag ∧
    tupperProjectionParameters [] ⟨some "r", some "c", some "p"⟩ =
      .noneReturned projectionParametersDiag :=
  C9_accessors_swallow_load_failures [] "r" "c" "p" rfl rfl rfl rfl rfl

/-- C10: constructing a Model with a path that is not an existing file
succeeds (the constructor is total and just leaves the mapper path
unset); the failure surfaces only on first use, when the mapper,
complex, tupper and hyperparameter accessors all fail with the
assertion message `Please Specify a valid path to a mapper object`. -/
theorem C10_model_init_defers_failure (fs : FileSys) (path : String)
    (h : alookup path fs = none) :
    (modelInit fs path).mapperPath = none ∧
    modelMapper fs (modelInit fs path) = .error mapperAssertMsg ∧
    modelComplex fs (modelInit fs path) = .error mapperAssertMsg ∧
    modelTupper fs (modelInit fs path) = .error mapperAssertMsg ∧
    modelHyperParameters fs (modelInit fs path) = .error mapperAssertMsg := by
  have hm : (modelInit fs path).mapperPath = none := by
    simp [modelInit, h]
  refine ⟨hm, ?_, ?_, ?_, ?_⟩
  · simp [modelMapper, hm]
  · simp [modelComplex, modelMapper, hm, Except.bind]
  · simp [modelTupper, modelMapper, hm, Except.bind]
  · simp [modelHyperParameters, modelInit, h, hm]

/-- Witness for `C10_model_init_defers_failure` on an empty filesystem. -/
theorem C10_model_init_defers_failure_witness :
    (modelInit [] "mapper.pkl").mapperPath = none ∧
    modelMapper [] (modelInit [] "mapper.pkl") = .error mapperAssertMsg ∧
    modelComplex [] (modelInit [] "mapper.pkl") = .error mapperAssertMsg ∧
    modelTupper [] (modelInit [] "mapper.pkl") = .error mapperAssertMsg ∧
    modelHyperParameters [] (modelInit [] "mapper.pkl") =
      .error mapperAssertMsg :=
  C10_model_init_defers_failure [] "mapper.pkl" rfl

/-! ### IEEE-style extended values for the matching score

`Model.target_matching` works on numpy float64 values, where dividing by
a zero mean produces `inf`, `-inf` or `nan` instead of raising.  `EF`
models exactly the values reachable in that code path. -/

inductive EF : Type where
  | fin (q : ℚ) : EF
  | inf : EF
  | ninf : EF
  | nan : EF
deriving DecidableEq

/-- IEEE addition restricted to the values of `EF`. -/
def EF.add : EF → EF → EF
  | .nan, _ => .nan
  | _, .nan => .nan
  | .inf, .ninf => .nan
  | .ninf, .inf => .nan
  | .inf, _ => .inf
  | _, .inf => .inf
  | .ninf, _ => .ninf
  | _, .ninf => .ninf
  | .fin a, .fin b => .fin (a + b)

/-- IEEE strict less-than: any comparison with NaN is false. -/
def EF.ltb : EF → EF → Bool
  | .nan, _ => false
  | _, .nan => false
  | .ninf, .ninf => false
  | .ninf, _ => true
  | _, .ninf => false
  | .inf, _ => false
  | .fin _, .inf => true
  | .fin a, .fin b => decide (a < b)

/-- A value that is neither NaN nor -inf; the error contributions in
`target_matching` only ever produce such values. -/
def EF.ok : EF → Prop
  | .nan => False
  | .ninf => False
  | _ => True

theorem EF.add_ok {a b : EF} (ha : a.ok) (hb : b.ok) : (EF.add a b).ok := by
  cases a <;> cases b <;> simp_all [EF.add, EF.ok]

theorem EF.add_inf_left {b : EF} (hb : b.ok) : EF.add .inf b = .inf := by
  cases b <;> simp_all [EF.add, EF.ok]

theorem EF.add_inf_right {a : EF} (ha : a.ok) : EF.add a .inf = .inf := by
  cases a <;> simp_all [EF.add, EF.ok]

theorem EF.ltb_inf_left (b : EF) : EF.ltb .inf b = false := by
  cases b <;> simp [EF.ltb]

/-- Option-valued `mapM` with left-to-right Python loop semantics. -/
def omapM {α β : Type} (f : α → Option β) : List α → Option (List β)
  | [] => some []
  | a :: rest =>
      match f a with
      | none => none
      | some b => (omapM f rest).map (fun bs => b :: bs)

theorem omapM_forall₂ {α β : Type} (f : α → Option β) (l : List α)
    (l₁ : List β) (h : omapM f l = some l₁) :
    List.Forall₂ (fun a b => f a = some b) l l₁ := by
  induction l generalizing l₁ with
  | nil => simp [omapM] at h; subst h; exact List.Forall₂.nil
  | cons a rest ih =>
      unfold omapM at h
      cases hf : f a with
      | none => rw [hf] at h; simp at h
      | some b =>
          rw [hf] at h
          cases hr : omapM f rest with
          | none => rw [hr] at h; simp at h
          | some bs =>
              rw [hr] at h
              simp at h
              subst h
              exact List.Forall₂.cons hf (ih bs hr)

theorem forall₂_exists_of_mem_left {α β : Type} {R : α → β → Prop}
    {l : List α} {l₁ : List β} (h : List.Forall₂ R l l₁) {a : α}
    (ha : a ∈ l) : ∃ b ∈ l₁, R a b := by
  induction h with
  | nil => simp at ha
  | cons hr _ ih =>
      rcases List.mem_cons.mp ha with h₁ | h₁
      · subst h₁; exact ⟨_, List.mem_cons_self _ _, hr⟩
      · obtain ⟨b, hb, hab⟩ := ih h₁
        exact ⟨b, List.mem_cons_of_mem _ hb, hab⟩

theorem forall₂_eq_map {α β : Type} {R : α → β → Prop} {l : List α}
    {l₁ : List β} (h : List.Forall₂ R l l₁) (g : α → β)
    (hg : ∀ a b, R a b → b = g a) : l₁ = l.map g := by
  induction h with
  | nil => simp
  | cons hr _ ih => simp [ih, hg _ _ hr]

/-! ### target_matching (model.py) -/

/-- The raw DataFrame: per column, `some values` when the column is
numeric (indexed by item), `none` when it is not numeric. -/
abbrev RawDF := List (String × Option (List ℚ))

/-- `raw.select_dtypes(include=np.number).columns`. -/
def rawNumericCols (raw : RawDF) : List String :=
  (raw.filter (fun c => c.2.isSome)).map Prod.fst

/-- The single-record target DataFrame: per column, whether its dtype is
numeric and its value (`none` = missing / NaN). -/
abbrev TargetDF := List (String × Bool × Option ℚ)

/-- `target.select_dtypes(include=np.number).dropna(axis=1).columns`:
numeric columns whose (single) value is present. -/
def targetCols (tgt : TargetDF) : List String :=
  (tgt.filter (fun c => c.2.1 && c.2.2.isSome)).map Prod.fst

/-- `target[col][0]`. -/
def targetVal (tgt : TargetDF) (c : String) : Option ℚ :=
  (alookup c tgt).bind (fun e => e.2)

/-- The `raw_cols` variable: the caller-supplied filter replaces the raw
numeric columns when it is given and non-empty (Python truthiness of the
list), and is NOT intersected with them. -/
def rawColsChoice (raw : RawDF) (colFilter : Option (List String)) :
    List String :=
  match colFilter with
  | some f => if f.isEmpty then rawNumericCols raw else f
  | none => rawNumericCols raw

/-- `group_data[col]`: `none` models the KeyError / TypeError raised when
the column is absent from raw or not numeric, and the IndexError when an
item index is out of range. -/
def groupColVals (raw : RawDF) (items : List ℕ) (c : String) :
    Option (List ℚ) :=
  match alookup c raw with
  | none => none
  | some none => none
  | some (some vals) => omapM (fun i => vals[i]?) items

/-- `group_data[col].mean()`: the empty series has mean NaN. -/
def meanEF (vals : List ℚ) : EF :=
  if vals.isEmpty then .nan else .fin (qmean vals)

/-- `error(x, mu) = abs((x - mu) / mu)` in float64 arithmetic: a zero
mean gives `inf` (or `nan` when the numerator is also zero). -/
def errorEF (x : ℚ) : EF → EF
  | .nan => .nan
  | .inf => .nan
  | .ninf => .nan
  | .fin m =>
      if m = 0 then (if x = 0 then .nan else .inf)
      else .fin (|x - m| / |m|)

/-- The inner scoring loop of `target_matching`: iterate the target
columns, and accumulate the error term for those found in `raw_cols`. -/
def gsAux (raw : RawDF) (tgt : TargetDF) (rawCols : List String)
    (items : List ℕ) : List String → EF → Option EF
  | [], acc => some acc
  | c :: rest, acc =>
      if c ∈ rawCols then
        match targetVal tgt c, groupColVals raw items c with
        | some x, some vals =>
            gsAux raw tgt rawCols items rest (EF.add acc (errorEF x (meanEF vals)))
        | _, _ => none
      else gsAux raw tgt rawCols items rest acc

/-- Score of one cluster in `target_matching`. -/
def groupScoreImpl (raw : RawDF) (tgt : TargetDF) (rawCols : List String)
    (items : List ℕ) : Option EF :=
  gsAux raw tgt rawCols items (targetCols tgt) (EF.fin 0)

/-- The cluster grouping after the optional `pop("group_-1")`: the
unclustered group is dropped only when removal is requested AND the
unclustered item list is non-empty. -/
def groupsAfterPop (itemsDict : List (ℤ × List ℕ)) (unclustered : List ℕ)
    (removeUnclustered : Bool) : List (ℤ × List ℕ) :=
  if removeUnclustered = true ∧ 0 < unclustered.length then
    itemsDict.filter (fun g => g.1 ≠ -1)
  else itemsDict

/-- `min(scores, key=scores.get)`: linear scan replacing the current best
only on a strict IEEE less-than. -/
def minScan (s₀ : ℤ × EF) (rest : List (ℤ × EF)) : ℤ × EF :=
  rest.foldl (fun best s => if EF.ltb s.2 best.2 then s else best) s₀

/-- `Model.target_matching`: build the per-cluster grouping, optionally
drop the unclustered group, score every cluster against the target
record, and return the scores with the argmin cluster.  `none` models
the exceptions (missing column, empty score dict). -/
def targetMatching (itemsDict : List (ℤ × List ℕ)) (unclustered : List ℕ)
    (raw : RawDF) (tgt : TargetDF) (removeUnclustered : Bool)
    (colFilter : Option (List String)) : Option (List (ℤ × EF) × ℤ) :=
  (omapM (fun g =>
      (groupScoreImpl raw tgt (rawColsChoice raw colFilter) g.2).map
        (fun s => (g.1, s)))
    (groupsAfterPop itemsDict unclustered removeUnclustered)).bind
    fun scores =>
      match scores with
      | [] => none
      | s₀ :: rest => some (scores, (minScan s₀ rest).1)

/-- The columns actually compared by the scoring loop. -/
def comparedColumns (tgt : TargetDF) (raw : RawDF)
    (colFilter : Option (List String)) : List String :=
  (targetCols tgt).filter (fun c => c ∈ rawColsChoice raw colFilter)

/-- Modelled from the claim wording (refinement comparison only): the
comparison column set the claim describes, namely the numeric
non-missing target columns intersected with the caller filter AND with
the raw numeric columns. -/
def claimComparedColumns (tgt : TargetDF) (raw : RawDF)
    (f : List String) : List String :=
  (targetCols tgt).filter (fun c => c ∈ f ∧ c ∈ rawNumericCols raw)

/-- One error contribution, as a total function (defaults are only used
where `targetMatching` would already have failed). -/
def contribEF (raw : RawDF) (tgt : TargetDF) (items : List ℕ)
    (c : String) : EF :=
  errorEF ((targetVal tgt c).getD 0) (meanEF ((groupColVals raw items c).getD []))

/-- The score as a plain sum of contributions over a column list. -/
def specScore (raw : RawDF) (tgt : TargetDF) (items : List ℕ)
    (compared : List String) : EF :=
  compared.foldl (fun acc c => EF.add acc (contribEF raw tgt items c)) (EF.fin 0)

theorem gsAux_eq_foldl (raw : RawDF) (tgt : TargetDF) (rawCols : List String)
    (items : List ℕ) (L : List String) (acc s : EF)
    (h : gsAux raw tgt rawCols items L acc = some s) :
    s = (L.filter (fun c => c ∈ rawCols)).foldl
      (fun a c => EF.add a (contribEF raw tgt items c)) acc := by
  induction L generalizing acc with
  | nil => simp [gsAux] at h; simp [h.symm]
  | cons c rest ih =>
      by_cases hc : c ∈ rawCols
      · simp only [gsAux, if_pos hc] at h
        cases ht : targetVal tgt c with
        | none => rw [ht] at h; simp at h
        | some x =>
            cases hg : groupColVals raw items c with
            | none => rw [ht, hg] at h; simp at h
            | some vals =>
                rw [ht, hg] at h
                have := ih _ h
                rw [this]
                simp [List.filter_cons, hc, contribEF, ht, hg]
      · simp only [gsAux, if_neg hc] at h
        have := ih _ h
        rw [this]
        simp [List.filter_cons, hc]

theorem groupScoreImpl_eq_specScore (raw : RawDF) (tgt : TargetDF)
    (rawCols : List String) (items : List ℕ) (s : EF)
    (h : groupScoreImpl raw tgt rawCols items = some s) :
    s = specScore raw tgt items ((targetCols tgt).filter (fun c => c ∈ rawCols)) :=
  gsAux_eq_foldl raw tgt rawCols items (targetCols tgt) (EF.fin 0) s h

theorem EF.ltb_to_inf {x : EF} (h : EF.ltb x .inf = false) :
    x = .inf ∨ x = .nan := by
  cases x <;> simp_all [EF.ltb]

theorem minScan_mem (s₀ : ℤ × EF) (rest : List (ℤ × EF)) :
    minScan s₀ rest ∈ s₀ :: rest := by
  induction rest generalizing s₀ with
  | nil => simp [minScan]
  | cons e rest ih =>
      have hstep : minScan s₀ (e :: rest) =
          minScan (if EF.ltb e.2 s₀.2 then e else s₀) rest := by
        simp [minScan]
      rw [hstep]
      by_cases h : EF.ltb e.2 s₀.2
      · rw [if_pos h]
        rcases List.mem_cons.mp (ih e) with h₁ | h₁
        · rw [h₁]; simp
        · simp [h₁]
      · rw [if_neg h]
        rcases List.mem_cons.mp (ih s₀) with h₁ | h₁
        · rw [h₁]; simp
        · simp [h₁]

theorem minScan_eq_inf (s₀ : ℤ × EF) (rest : List (ℤ × EF))
    (h : (minScan s₀ rest).2 = EF.inf) :
    s₀.2 = EF.inf ∧ ∀ e ∈ rest, e.2 = EF.inf ∨ e.2 = EF.nan := by
  induction rest generalizing s₀ with
  | nil =>
      simp [minScan] at h
      exact ⟨h, by simp⟩
  | cons e rest ih =>
      have hstep : minScan s₀ (e :: rest) =
          minScan (if EF.ltb e.2 s₀.2 then e else s₀) rest := by
        simp [minScan]
      rw [hstep] at h
      obtain ⟨h₁, h₂⟩ := ih _ h
      by_cases hb : EF.ltb e.2 s₀.2
      · rw [if_pos hb] at h₁
        rw [h₁, EF.ltb_inf_left] at hb
        exact absurd hb (by simp)
      · rw [if_neg hb] at h₁
        refine ⟨h₁, ?_⟩
        intro x hx
        rcases List.mem_cons.mp hx with h₃ | h₃
        · subst h₃
          rw [h₁] at hb
          exact EF.ltb_to_inf (by simpa using hb)
        · exact h₂ x h₃

theorem foldl_add_eq_inf (L : List EF) (acc : EF) (hacc : acc.ok)
    (hL : ∀ e ∈ L, e.ok) (hinf : acc = .inf ∨ ∃ e ∈ L, e = .inf) :
    L.foldl EF.add acc = .inf := by
  induction L generalizing acc with
  | nil =>
      rcases hinf with h | h
      · simpa using h
      · simp at h
  | cons e rest ih =>
      have he : e.ok := hL e (List.mem_cons_self _ _)
      have hrest : ∀ x ∈ rest, x.ok := fun x hx => hL x (List.mem_cons_of_mem _ hx)
      rw [List.foldl_cons]
      apply ih _ (EF.add_ok hacc he) hrest
      rcases hinf with h | h
      · left; rw [h]; exact EF.add_inf_left he
      · rcases h with ⟨x, hx, hxi⟩
        rcases List.mem_cons.mp hx with h₃ | h₃
        · left
          rw [h₃] at hxi
          rw [hxi]
          exact EF.add_inf_right hacc
        · right; exact ⟨x, h₃, hxi⟩

theorem gsAux_success (raw : RawDF) (tgt : TargetDF) (rawCols : List String)
    (items : List ℕ) (L : List String) (acc s : EF)
    (h : gsAux raw tgt rawCols items L acc = some s) :
    ∀ c ∈ L, c ∈ rawCols →
      (∃ x, targetVal tgt c = some x) ∧
      (∃ vals, groupColVals raw items c = some vals) := by
  induction L generalizing acc with
  | nil => simp
  | cons c₁ rest ih =>
      intro c hc hcr
      by_cases h₁ : c₁ ∈ rawCols
      · simp only [gsAux, if_pos h₁] at h
        cases ht : targetVal tgt c₁ with
        | none => rw [ht] at h; simp at h
        | some x =>
            cases hg : groupColVals raw items c₁ with
            | none => rw [ht, hg] at h; simp at h
            | some vals =>
                rw [ht, hg] at h
                rcases List.mem_cons.mp hc with h₂ | h₂
                · subst h₂
                  exact ⟨⟨x, ht⟩, ⟨vals, hg⟩⟩
                · exact ih _ h c h₂ hcr
      · simp only [gsAux, if_neg h₁] at h
        rcases List.mem_cons.mp hc with h₂ | h₂
        · subst h₂; exact absurd hcr h₁
        · exact ih _ h c h₂ hcr

/-- The scores returned by `targetMatching` are exactly the per-group
spec scores over the compared column set, in group order. -/
theorem targetMatching_scores_eq (itemsDict : List (ℤ × List ℕ))
    (unclustered : List ℕ) (raw : RawDF) (tgt : TargetDF)
    (removeUnclustered : Bool) (colFilter : Option (List String))
    (scores : List (ℤ × EF)) (best : ℤ)
    (h : targetMatching itemsDict unclustered raw tgt removeUnclustered
      colFilter = some (scores, best)) :
    scores = (groupsAfterPop itemsDict unclustered removeUnclustered).map
      (fun gi => (gi.1, specScore raw tgt gi.2
        (comparedColumns tgt raw colFilter))) := by
  unfold targetMatching at h
  cases hm : omapM (fun g =>
      (groupScoreImpl raw tgt (rawColsChoice raw colFilter) g.2).map
        (fun s => (g.1, s)))
      (groupsAfterPop itemsDict unclustered removeUnclustered) with
  | none => rw [hm] at h; simp at h
  | some l =>
      rw [hm] at h
      have hf := omapM_forall₂ _ _ _ hm
      have hl : l = (groupsAfterPop itemsDict unclustered removeUnclustered).map
          (fun gi => (gi.1, specScore raw tgt gi.2
            (comparedColumns tgt raw colFilter))) := by
        apply forall₂_eq_map hf
        intro a b hab
        cases hs : groupScoreImpl raw tgt (rawColsChoice raw colFilter) a.2 with
        | none => rw [hs] at hab; simp at hab
        | some s =>
            rw [hs] at hab
            simp at hab
            have := groupScoreImpl_eq_specScore _ _ _ _ _ hs
            rw [← hab, this]
            rfl
      cases hl2 : l with
      | nil =>
          rw [hl2] at h
          simp at h
      | cons s₀ rest =>
          rw [hl2] at h
          simp only [Option.some_bind] at h
          have hsc : scores = s₀ :: rest := by
            have := congrArg Prod.fst (Option.some.inj h)
            exact this.symm
          rw [hsc, ← hl2, hl]

theorem minScan_best (scores : List (ℤ × EF)) (s₀ : ℤ × EF)
    (rest : List (ℤ × EF)) (g : ℤ) (hsc : scores = s₀ :: rest)
    (hnd : (scores.map Prod.fst).Nodup)
    (hginf : (g, EF.inf) ∈ scores)
    (hfin : ∃ gh q, (gh, EF.fin q) ∈ scores) :
    (minScan s₀ rest).1 ≠ g := by
  intro hbest
  subst hsc
  by_cases hm2 : (minScan s₀ rest).2 = EF.inf
  · obtain ⟨h₁, h₂⟩ := minScan_eq_inf s₀ rest hm2
    obtain ⟨gh, q, hq⟩ := hfin
    rcases List.mem_cons.mp hq with h₃ | h₃
    · rw [← h₃] at h₁; simp at h₁
    · rcases h₂ _ h₃ with h₄ | h₄ <;> simp at h₄
  · have hmem : minScan s₀ rest ∈ s₀ :: rest := minScan_mem s₀ rest
    have hmem₂ : (g, (minScan s₀ rest).2) ∈ s₀ :: rest := by
      rw [← hbest]; exact hmem
    have e₁ := alookup_of_mem_nodup g (minScan s₀ rest).2 _ hmem₂ hnd
    have e₂ := alookup_of_mem_nodup g EF.inf _ hginf hnd
    rw [e₁] at e₂
    exact hm2 (Option.some.inj e₂)

/-! ### Claims C5 and C6 -/

/-- C5 (counterexample): with a caller filter `["a", "b"]` where `b` is
numeric and present in the target but not numeric in raw, the loop
compares `["a", "b"]` — the filter replaces the raw numeric columns
instead of being intersected with them as the claim states — and the
run then fails on the non-numeric raw column instead of skipping it. -/
theorem C5_counterexample_filter_not_intersected :
    comparedColumns [("a", true, some 1), ("b", true, some 3)]
      [("a", some [1, 2]), ("b", none)] (some ["a", "b"]) = ["a", "b"] ∧
    claimComparedColumns [("a", true, some 1), ("b", true, some 3)]
      [("a", some [1, 2]), ("b", none)] ["a", "b"] = ["a"] ∧
    (["a", "b"] : List String) ≠ ["a"] ∧
    targetMatching [(0, [0]), (-1, [])] [] [("a", some [1, 2]), ("b", none)]
      [("a", true, some 1), ("b", true, some 3)] true (some ["a", "b"]) =
      none := by
  refine ⟨by decide, by decide, by decide, ?_⟩
  norm_num +decide [targetMatching, groupsAfterPop, rawColsChoice,
    rawNumericCols, groupScoreImpl, gsAux, targetCols, targetVal, alookup,
    groupColVals, omapM, meanEF, errorEF, qmean, EF.add, minScan]

/-- C5 (amended): the scores of `target_matching` are sums of error
terms over exactly the numeric non-missing target columns intersected
with `raw_cols`, where `raw_cols` is the caller filter itself when one
is given and non-empty, and the raw numeric columns otherwise; the
filter is NOT additionally intersected with the raw numeric columns. -/
theorem C5_compared_column_set (itemsDict : List (ℤ × List ℕ))
    (unclustered : List ℕ) (raw : RawDF) (tgt : TargetDF)
    (removeUnclustered : Bool) (colFilter : Option (List String))
    (scores : List (ℤ × EF)) (best : ℤ)
    (h : targetMatching itemsDict unclustered raw tgt removeUnclustered
      colFilter = some (scores, best)) :
    scores = (groupsAfterPop itemsDict unclustered removeUnclustered).map
      (fun gi => (gi.1, specScore raw tgt gi.2
        ((targetCols tgt).filter (fun c => c ∈ rawColsChoice raw colFilter)))) :=
  targetMatching_scores_eq itemsDict unclustered raw tgt removeUnclustered
    colFilter scores best h

/-- Witness for `C5_compared_column_set` on a one-column run. -/
theorem C5_compared_column_set_witness :
    [((0 : ℤ), EF.fin 0), (-1, EF.nan)] =
      (groupsAfterPop [(0, [0]), (-1, [])] [] true).map
        (fun gi => (gi.1, specScore [("a", some [1, 2])]
          [("a", true, some 1)] gi.2
          ((targetCols [("a", true, some 1)]).filter
            (fun c => c ∈ rawColsChoice [("a", some [1, 2])] none)))) :=
  C5_compared_column_set [(0, [0]), (-1, [])] [] [("a", some [1, 2])]
    [("a", true, some 1)] true none [(0, EF.fin 0), (-1, EF.nan)] 0
    (by norm_num +decide [targetMatching, groupsAfterPop, rawColsChoice,
      rawNumericCols, groupScoreImpl, gsAux, targetCols, targetVal, alookup,
      groupColVals, omapM, meanEF, errorEF, qmean, EF.add, minScan, EF.ltb])

theorem targetMatching_shape (itemsDict : List (ℤ × List ℕ))
    (unclustered : List ℕ) (raw : RawDF) (tgt : TargetDF)
    (removeUnclustered : Bool) (colFilter : Option (List String))
    (scores : List (ℤ × EF)) (best : ℤ)
    (h : targetMatching itemsDict unclustered raw tgt removeUnclustered
      colFilter = some (scores, best)) :
    (∃ s₀ rest, scores = s₀ :: rest ∧ best = (minScan s₀ rest).1) ∧
    List.Forall₂ (fun a b =>
        (groupScoreImpl raw tgt (rawColsChoice raw colFilter) a.2).map
          (fun s => (a.1, s)) = some b)
      (groupsAfterPop itemsDict unclustered removeUnclustered) scores := by
  unfold targetMatching at h
  cases hm : omapM (fun g =>
      (groupScoreImpl raw tgt (rawColsChoice raw colFilter) g.2).map
        (fun s => (g.1, s)))
      (groupsAfterPop itemsDict unclustered removeUnclustered) with
  | none => rw [hm] at h; simp at h
  | some l =>
      rw [hm] at h
      cases hl2 : l with
      | nil => rw [hl2] at h; simp at h
      | cons s₀ rest =>
          rw [hl2] at h
          simp only [Option.some_bind] at h
          have hp := Option.some.inj h
          have hsc : scores = s₀ :: rest := (congrArg Prod.fst hp).symm
          have hb : best = (minScan s₀ rest).1 := (congrArg Prod.snd hp).symm
          refine ⟨⟨s₀, rest, hsc, hb⟩, ?_⟩
          rw [hsc, ← hl2]
          exact omapM_forall₂ _ _ _ hm

/-- C6 (counterexample): cluster 0 has mean 0 in the compared column and
the target value is also 0; the contribution is NaN, not +infinity, and
far from being disqualified the NaN cluster is returned as the best
match even though cluster 1 has a finite score. -/
theorem C6_counterexample_nan_cluster_wins :
    targetMatching [(0, [0]), (1, [1]), (-1, [])] [] [("a", some [0, 5])]
      [("a", true, some 0)] true none =
      some ([(0, EF.nan), (1, EF.fin 1), (-1, EF.nan)], 0) ∧
    groupColVals [("a", some [0, 5])] [0] "a" = some [0] ∧
    qmean [0] = 0 ∧
    EF.nan ≠ EF.inf := by
  refine ⟨?_, by norm_num +decide [groupColVals, alookup, omapM], ?_, by decide⟩
  · norm_num +decide [targetMatching, groupsAfterPop, rawColsChoice,
      rawNumericCols, groupScoreImpl, gsAux, targetCols, targetVal, alookup,
      groupColVals, omapM, meanEF, errorEF, qmean, EF.add, minScan, EF.ltb]
  · norm_num [qmean]

/-- C6 (amended): when a cluster has mean 0 in some compared column and
the target value there is nonzero (and no compared column makes the
contribution NaN, i.e. each compared column of this cluster has data and
a zero mean only ever meets a nonzero target value), the cluster score
is +infinity and the cluster cannot be the returned match as long as
some cluster has a finite score.  When the target value is also 0 the
contribution is NaN instead and the guarantee fails (see the
counterexample).  No exception is raised either way: the run still
returns a value. -/
theorem C6_zero_mean_gives_inf_and_disqualifies
    (itemsDict : List (ℤ × List ℕ)) (unclustered : List ℕ) (raw : RawDF)
    (tgt : TargetDF) (removeUnclustered : Bool)
    (colFilter : Option (List String)) (scores : List (ℤ × EF)) (best : ℤ)
    (g : ℤ) (items : List ℕ)
    (h : targetMatching itemsDict unclustered raw tgt removeUnclustered
      colFilter = some (scores, best))
    (hg : (g, items) ∈ groupsAfterPop itemsDict unclustered removeUnclustered)
    (hnd : ((groupsAfterPop itemsDict unclustered removeUnclustered).map
      Prod.fst).Nodup)
    (hzero : ∃ c ∈ comparedColumns tgt raw colFilter, ∃ vals x,
      groupColVals raw items c = some vals ∧ vals ≠ [] ∧ qmean vals = 0 ∧
      targetVal tgt c = some x ∧ x ≠ 0)
    (hnonan : ∀ c ∈ comparedColumns tgt raw colFilter, ∀ vals,
      groupColVals raw items c = some vals →
      vals ≠ [] ∧ (qmean vals = 0 → ∀ x, targetVal tgt c = some x → x ≠ 0))
    (hfin : ∃ gh q, (gh, EF.fin q) ∈ scores) :
    alookup g scores = some EF.inf ∧ best ≠ g := by
  obtain ⟨⟨s₀, rest, hsc, hb⟩, hf2⟩ := targetMatching_shape itemsDict
    unclustered raw tgt removeUnclustered colFilter scores best h
  have hscmap := targetMatching_scores_eq itemsDict unclustered raw tgt
    removeUnclustered colFilter scores best h
  -- the implementation succeeded on cluster g
  obtain ⟨b, _, hab⟩ := forall₂_exists_of_mem_left hf2 hg
  have hs : ∃ s, groupScoreImpl raw tgt (rawColsChoice raw colFilter) items
      = some s := by
    cases hgs : groupScoreImpl raw tgt (rawColsChoice raw colFilter) items with
    | none => rw [hgs] at hab; simp at hab
    | some s => exact ⟨s, rfl⟩
  obtain ⟨s, hgs⟩ := hs
  have hsucc := gsAux_success raw tgt (rawColsChoice raw colFilter) items
    (targetCols tgt) (EF.fin 0) s hgs
  -- every contribution over the compared columns is finite or +inf
  have hok : ∀ e ∈ (comparedColumns tgt raw colFilter).map
      (contribEF raw tgt items), e.ok := by
    intro e he
    obtain ⟨c, hc, rfl⟩ := List.mem_map.mp he
    have hc2 := List.mem_filter.mp hc
    have hcT : c ∈ targetCols tgt := hc2.1
    have hcR : c ∈ rawColsChoice raw colFilter := by
      have := hc2.2
      exact of_decide_eq_true this
    obtain ⟨⟨x, ht⟩, ⟨vals, hv⟩⟩ := hsucc c hcT hcR
    obtain ⟨hne, himp⟩ := hnonan c hc vals hv
    unfold contribEF
    rw [ht, hv]
    simp only [Option.getD_some]
    rw [meanEF, if_neg (by simpa using hne)]
    by_cases hq : qmean vals = 0
    · rw [errorEF, if_pos hq, if_neg (himp hq x ht)]
      trivial
    · rw [errorEF, if_neg hq]
      trivial
  -- some contribution is +inf
  have hinf : ∃ e ∈ (comparedColumns tgt raw colFilter).map
      (contribEF raw tgt items), e = EF.inf := by
    obtain ⟨c₀, hc₀, vals₀, x₀, hv₀, hne₀, hq₀, ht₀, hx₀⟩ := hzero
    refine ⟨contribEF raw tgt items c₀, List.mem_map.mpr ⟨c₀, hc₀, rfl⟩, ?_⟩
    unfold contribEF
    rw [ht₀, hv₀]
    simp only [Option.getD_some]
    rw [meanEF, if_neg (by simpa using hne₀), hq₀]
    rw [errorEF, if_pos rfl, if_neg hx₀]
  -- hence the spec score of cluster g is +inf
  have hspec : specScore raw tgt items (comparedColumns tgt raw colFilter)
      = EF.inf := by
    unfold specScore
    rw [← List.foldl_map]
    exact foldl_add_eq_inf _ _ trivial hok (Or.inr hinf)
  -- keys of the scores are exactly the group keys
  have hkeys : scores.map Prod.fst =
      (groupsAfterPop itemsDict unclustered removeUnclustered).map Prod.fst := by
    rw [hscmap, List.map_map]
    rfl
  have hnd2 : (scores.map Prod.fst).Nodup := by rw [hkeys]; exact hnd
  have hmem : (g, EF.inf) ∈ scores := by
    rw [hscmap, ← hspec]
    exact List.mem_map.mpr ⟨(g, items), hg, rfl⟩
  have hlook : alookup g scores = some EF.inf :=
    alookup_of_mem_nodup g EF.inf scores hmem hnd2
  refine ⟨hlook, ?_⟩
  rw [hb]
  exact minScan_best scores s₀ rest g hsc hnd2 hmem hfin

/-- Witness for `C6_zero_mean_gives_inf_and_disqualifies`: cluster 0 has
mean 0 in the compared column, the target value is 3, and cluster 1 has
the finite score 2/5, so cluster 0 scores +inf and cluster 1 wins. -/
theorem C6_zero_mean_gives_inf_and_disqualifies_witness :
    alookup (0 : ℤ) [((0 : ℤ), EF.inf), (1, EF.fin (2 / 5)), (-1, EF.nan)]
      = some EF.inf ∧ (1 : ℤ) ≠ (0 : ℤ) := by
  have h := C6_zero_mean_gives_inf_and_disqualifies
    [(0, [0]), (1, [1]), (-1, [])] [] [("a", some [0, 5])]
    [("a", true, some 3)] true none
    [(0, EF.inf), (1, EF.fin (2 / 5)), (-1, EF.nan)] 1 0 [0]
    (by norm_num +decide [targetMatching, groupsAfterPop, rawColsChoice,
      rawNumericCols, groupScoreImpl, gsAux, targetCols, targetVal, alookup,
      groupColVals, omapM, meanEF, errorEF, qmean, EF.add, minScan, EF.ltb])
    (by norm_num +decide [groupsAfterPop])
    (by norm_num +decide [groupsAfterPop])
    (by
      refine ⟨"a", by norm_num +decide [comparedColumns, targetCols,
        rawColsChoice, rawNumericCols], [0], 3, ?_, ?_, ?_, ?_, ?_⟩
      · norm_num +decide [groupColVals, alookup, omapM]
      · norm_num
      · norm_num [qmean]
      · norm_num +decide [targetVal, alookup]
      · norm_num)
    (by
      intro c hc vals hv
      have hc2 : c = "a" := by
        simp +decide [comparedColumns, targetCols, rawColsChoice,
          rawNumericCols] at hc
        exact hc
      subst hc2
      have hv2 : vals = [0] := by
        rw [show groupColVals [("a", some [0, 5])] [0] "a" = some [0] by
          norm_num +decide [groupColVals, alookup, omapM]] at hv
        exact (Option.some.inj hv).symm
      subst hv2
      refine ⟨by norm_num, ?_⟩
      intro _ x hx
      have hx2 : x = 3 := by
        rw [show targetVal [("a", true, some 3)] "a" = some 3 by
          norm_num +decide [targetVal, alookup]] at hx
        exact (Option.some.inj hx).symm
      subst hx2
      norm_num)
    ⟨1, 2 / 5, by norm_num⟩
  exact ⟨h.1, fun he => by simp at he⟩

/-! ### The complex and item labelling (model.py)

`Model.complex` is the kepler-mapper dictionary; its entry under the key
`nodes` maps node names to item index lists, the other entries (links,
meta, ...) are opaque here.  `len(self.complex)` in the precondition
check of `label_item_by_cluster` is the number of TOP-LEVEL keys of
this dictionary, not the number of nodes. -/

inductive CVal : Type where
  | nodesVal (d : List (String × List ℕ)) : CVal
  | otherVal : CVal
deriving DecidableEq

abbrev ComplexDict := List (String × CVal)

/-- `self.complex["nodes"]`. -/
def getNodes (cx : ComplexDict) : Option (List (String × List ℕ)) :=
  match alookup "nodes" cx with
  | some (.nodesVal d) => some d
  | _ => none

/-- The inner loop of `label_item_by_node`: node ids whose item set
contains the given item. -/
def nodeIdsContaining (nd : List (String × List ℕ)) (i : ℕ) : List String :=
  (nd.filter (fun e => i ∈ e.2)).map Prod.fst

/-- A value of the `label_item_by_node` labels dict: the list of
containing node ids, or the integer -1 when the item is in no node. -/
inductive NodeLabel : Type where
  | nodes (ids : List String) : NodeLabel
  | minusOne : NodeLabel
deriving DecidableEq

/-- `Model.label_item_by_node`: the per-item labels dict and the
unclustered item list. -/
def labelItemByNode (N : ℕ) (nd : List (String × List ℕ)) :
    List (ℕ × NodeLabel) × List ℕ :=
  ((List.range N).map (fun i =>
      (i, if nodeIdsContaining nd i = [] then NodeLabel.minusOne
          else NodeLabel.nodes (nodeIdsContaining nd i))),
   (List.range N).filter (fun i => nodeIdsContaining nd i = []))

/-- `self.unclustered_items` as computed by `label_item_by_node`. -/
def unclusteredItems (N : ℕ) (nd : List (String × List ℕ)) : List ℕ :=
  (List.range N).filter (fun i => nodeIdsContaining nd i = [])

inductive ClusterErr : Type where
  | precondition : ClusterErr
  | keyError : ClusterErr
  | indexError : ClusterErr
deriving DecidableEq

structure ClusterResult : Type where
  labels : List ℤ
  clusterSizes : List (ℤ × ℕ)
  itemsDict : List (ℤ × List ℕ)
deriving DecidableEq

/-- Item lists of the member nodes of one component, concatenated in
node order (`itertools.chain` over looked-up node item lists). -/
def compItems (nd : List (String × List ℕ)) (nodeNames : List String) :
    List ℕ :=
  (nodeNames.filterMap (fun nm => alookup nm nd)).flatten

/-- The component loop of `label_item_by_cluster`: per component, look
up the member node item lists (KeyError on a missing node), deduplicate
their union, write the labels (IndexError past the end of the label
array) and record size and member list under the component cluster id. -/
def lcAux (N : ℕ) (nd : List (String × List ℕ)) :
    List (ℤ × List String) → List ℤ → List (ℤ × ℕ) → List (ℤ × List ℕ) →
    Except ClusterErr (List ℤ × List (ℤ × ℕ) × List (ℤ × List ℕ))
  | [], labels, sizes, idict => .ok (labels, sizes, idict)
  | (cid, nodeNames) :: rest, labels, sizes, idict =>
      match omapM (fun nm => alookup nm nd) nodeNames with
      | none => .error .keyError
      | some elements =>
          if (elements.flatten.dedup).all (fun i => i < N) then
            lcAux N nd rest
              ((elements.flatten.dedup).foldl (fun ls i => ls.set i cid) labels)
              (dictInsert cid (elements.flatten.dedup).length sizes)
              (dictInsert cid elements.flatten.dedup idict)
          else .error .indexError

/-- `Model.label_item_by_cluster`: asserts that the complex dictionary
is non-empty (NOT that it has nodes), then labels items per connected
component and finally adds the unclustered entry under cluster -1. -/
def labelItemByCluster (N : ℕ) (cx : ComplexDict)
    (components : List (ℤ × List String)) : Except ClusterErr ClusterResult :=
  if cx.length = 0 then .error .precondition
  else
    match getNodes cx with
    | none => .error .keyError
    | some nd =>
        (lcAux N nd components (List.replicate N (-1)) [] []).map
          (fun r =>
            ⟨r.1,
             dictInsert (-1) (unclusteredItems N nd).length r.2.1,
             dictInsert (-1) (unclusteredItems N nd) r.2.2⟩)

/-- The occurrence count of every item across the per-cluster item
lists (`value_counts` in `get_items_in_multiple_groups`). -/
def valueCounts (itemsDict : List (ℤ × List ℕ)) : List (ℕ × ℕ) :=
  itemsDict.foldl
    (fun vc e => e.2.foldl
      (fun vc₂ v => dictInsert v ((alookup v vc₂).getD 0 + 1) vc₂) vc) []

/-- `Model.get_items_in_multiple_groups`: items whose count across the
per-cluster lists exceeds one, mapped to the keys of the lists they
appear in. -/
def getItemsInMultipleGroups (itemsDict : List (ℤ × List ℕ)) :
    List (ℕ × List ℤ) :=
  (valueCounts itemsDict).foldl
    (fun ov e =>
      if 1 < e.2 then
        ov ++ [(e.1, (itemsDict.filter (fun g => e.1 ∈ g.2)).map Prod.fst)]
      else ov) []

/-! ### Claim C7 -/

theorem lcAux_error_ne_precondition (N : ℕ) (nd : List (String × List ℕ))
    (comps : List (ℤ × List String)) (labels : List ℤ)
    (sizes : List (ℤ × ℕ)) (idict : List (ℤ × List ℕ)) (e : ClusterErr)
    (h : lcAux N nd comps labels sizes idict = .error e) :
    e ≠ .precondition := by
  induction comps generalizing labels sizes idict with
  | nil => simp [lcAux] at h
  | cons c rest ih =>
      obtain ⟨cid, nodeNames⟩ := c
      unfold lcAux at h
      cases hm : omapM (fun nm => alookup nm nd) nodeNames with
      | none =>
          rw [hm] at h
          injection h with h₂
          subst h₂
          decide
      | some elements =>
          rw [hm] at h
          dsimp only at h
          cases hb : elements.flatten.dedup.all (fun i => i < N) with
          | true =>
              rw [hb, if_pos rfl] at h
              exact ih _ _ _ h
          | false =>
              rw [hb, if_neg (by simp)] at h
              injection h with h₂
              subst h₂
              decide

/-- C7 (amended): `label_item_by_cluster` fails with the precondition
assertion exactly when the complex DICTIONARY is empty (has no top-level
keys); a complex with a `nodes` entry passes the check even when that
entry holds zero nodes. -/
theorem C7_precondition_iff_empty_dict (N : ℕ) (cx : ComplexDict)
    (components : List (ℤ × List String)) :
    labelItemByCluster N cx components = .error .precondition ↔ cx = [] := by
  constructor
  · intro h
    by_contra hne
    have hlen : cx.length ≠ 0 := fun h₀ => hne (List.length_eq_zero.mp h₀)
    unfold labelItemByCluster at h
    rw [if_neg hlen] at h
    cases hg : getNodes cx with
    | none => rw [hg] at h; simp at h
    | some nd =>
        rw [hg] at h
        dsimp only at h
        cases hr : lcAux N nd components (List.replicate N (-1)) [] [] with
        | ok r => rw [hr] at h; simp [Except.map] at h
        | error e =>
            rw [hr] at h
            simp only [Except.map] at h
            injection h with h₂
            exact lcAux_error_ne_precondition N nd components _ _ _ e hr h₂
  · intro h
    subst h
    simp [labelItemByCluster]

/-- Witness for `C7_precondition_iff_empty_dict` at the empty dict. -/
theorem C7_precondition_iff_empty_dict_witness :
    labelItemByCluster 1 [] [] = .error .precondition ↔ ([] : ComplexDict) = [] :=
  C7_precondition_iff_empty_dict 1 [] []

/-- C7 (counterexample): a loaded complex with a `nodes` key but ZERO
nodes does not trigger the precondition failure; the call succeeds and
puts every item in the unclustered cluster.  The claim says a complex
with no nodes fails with a PreconditionError, which is false here. -/
theorem C7_counterexample_zero_nodes_passes :
    getNodes [("nodes", CVal.nodesVal [])] = some [] ∧
    labelItemByCluster 1 [("nodes", CVal.nodesVal [])] [] =
      .ok ⟨[-1], [(-1, 1)], [(-1, [0])]⟩ := by
  constructor
  · decide
  · rfl

/-! ### Claim C1: the cluster size sum -/

theorem omapM_eq_filterMap {α β : Type} (f : α → Option β) (l : List α)
    (h : ∀ a ∈ l, (f a).isSome) : omapM f l = some (l.filterMap f) := by
  induction l with
  | nil => simp [omapM]
  | cons a rest ih =>
      have ha := h a (List.mem_cons_self _ _)
      obtain ⟨b, hb⟩ := Option.isSome_iff_exists.mp ha
      rw [omapM, hb, ih (fun x hx => h x (List.mem_cons_of_mem _ hx))]
      simp [List.filterMap_cons, hb]

theorem mem_compItems (nd : List (String × List ℕ)) (nodeNames : List String)
    (i : ℕ) :
    i ∈ compItems nd nodeNames ↔
      ∃ nm ∈ nodeNames, ∃ lst, alookup nm nd = some lst ∧ i ∈ lst := by
  unfold compItems
  rw [List.mem_flatten]
  constructor
  · rintro ⟨lst, hlst, hi⟩
    obtain ⟨nm, hnm, hl⟩ := List.mem_filterMap.mp hlst
    exact ⟨nm, hnm, lst, hl, hi⟩
  · rintro ⟨nm, hnm, lst, hl, hi⟩
    exact ⟨lst, List.mem_filterMap.mpr ⟨nm, hnm, hl⟩, hi⟩

theorem compItems_bound (N : ℕ) (nd : List (String × List ℕ))
    (nodeNames : List String) (hbound : ∀ e ∈ nd, ∀ i ∈ e.2, i < N) (i : ℕ)
    (hi : i ∈ compItems nd nodeNames) : i < N := by
  obtain ⟨nm, _, lst, hl, hil⟩ := (mem_compItems nd nodeNames i).mp hi
  exact hbound (nm, lst) (alookup_mem nm lst nd hl) i hil

theorem lcAux_ok (N : ℕ) (nd : List (String × List ℕ))
    (comps : List (ℤ × List String)) (labels : List ℤ)
    (sizes : List (ℤ × ℕ)) (idict : List (ℤ × List ℕ))
    (hfound : ∀ c ∈ comps, ∀ nm ∈ c.2, (alookup nm nd).isSome)
    (hbound : ∀ e ∈ nd, ∀ i ∈ e.2, i < N)
    (hfreshS : ∀ c ∈ comps, alookup c.1 sizes = none)
    (hfreshI : ∀ c ∈ comps, alookup c.1 idict = none)
    (hcnd : (comps.map Prod.fst).Nodup) :
    ∃ labels₂, lcAux N nd comps labels sizes idict = .ok
      (labels₂,
       sizes ++ comps.map (fun c => (c.1, (compItems nd c.2).dedup.length)),
       idict ++ comps.map (fun c => (c.1, (compItems nd c.2).dedup))) := by
  induction comps generalizing labels sizes idict with
  | nil => exact ⟨labels, by simp [lcAux]⟩
  | cons c rest ih =>
      obtain ⟨cid, nodeNames⟩ := c
      have hf : ∀ nm ∈ nodeNames, (alookup nm nd).isSome :=
        hfound (cid, nodeNames) (List.mem_cons_self _ _)
      have hmm := omapM_eq_filterMap (fun nm => alookup nm nd) nodeNames hf
      have hflat : (nodeNames.filterMap (fun nm => alookup nm nd)).flatten
          = compItems nd nodeNames := rfl
      have hbnd : ((nodeNames.filterMap
          (fun nm => alookup nm nd)).flatten.dedup.all (fun i => i < N)) = true := by
        rw [List.all_eq_true]
        intro i hi
        have hi2 : i ∈ compItems nd nodeNames := by
          rw [← hflat]
          exact List.mem_dedup.mp hi
        exact decide_eq_true (compItems_bound N nd nodeNames hbound i hi2)
      have hndrest : (rest.map Prod.fst).Nodup := (List.nodup_cons.mp hcnd).2
      have hcidnot : cid ∉ rest.map Prod.fst := (List.nodup_cons.mp hcnd).1
      have hfS : alookup cid sizes = none :=
        hfreshS (cid, nodeNames) (List.mem_cons_self _ _)
      have hfI : alookup cid idict = none :=
        hfreshI (cid, nodeNames) (List.mem_cons_self _ _)
      have hfreshS₂ : ∀ c₂ ∈ rest,
          alookup c₂.1 (dictInsert cid (compItems nd nodeNames).dedup.length sizes)
            = none := by
        intro c₂ hc₂
        have hne : cid ≠ c₂.1 := by
          intro he
          exact hcidnot (he ▸ List.mem_map.mpr ⟨c₂, hc₂, rfl⟩)
        rw [alookup_dictInsert_ne cid c₂.1 _ sizes hne]
        exact hfreshS c₂ (List.mem_cons_of_mem _ hc₂)
      have hfreshI₂ : ∀ c₂ ∈ rest,
          alookup c₂.1 (dictInsert cid (compItems nd nodeNames).dedup idict)
            = none := by
        intro c₂ hc₂
        have hne : cid ≠ c₂.1 := by
          intro he
          exact hcidnot (he ▸ List.mem_map.mpr ⟨c₂, hc₂, rfl⟩)
        rw [alookup_dictInsert_ne cid c₂.1 _ idict hne]
        exact hfreshI c₂ (List.mem_cons_of_mem _ hc₂)
      obtain ⟨labels₂, hrec⟩ := ih
        (((nodeNames.filterMap (fun nm => alookup nm nd)).flatten.dedup).foldl
          (fun ls i => ls.set i cid) labels)
        (dictInsert cid (compItems nd nodeNames).dedup.length sizes)
        (dictInsert cid (compItems nd nodeNames).dedup idict)
        (fun c₂ hc₂ => hfound c₂ (List.mem_cons_of_mem _ hc₂))
        hfreshS₂ hfreshI₂ hndrest
      rw [hflat] at hrec
      refine ⟨labels₂, ?_⟩
      unfold lcAux
      rw [hmm]
      dsimp only
      rw [if_pos hbnd, hflat, hrec,
        dictInsert_eq_append cid _ sizes hfS,
        dictInsert_eq_append cid _ idict hfI]
      simp

theorem labelItemByCluster_ok (N : ℕ) (cx : ComplexDict)
    (components : List (ℤ × List String)) (nd : List (String × List ℕ))
    (hnodes : getNodes cx = some nd)
    (hbound : ∀ e ∈ nd, ∀ i ∈ e.2, i < N)
    (hfound : ∀ c ∈ components, ∀ nm ∈ c.2, (alookup nm nd).isSome)
    (hcid : ∀ c ∈ components, 0 ≤ c.1)
    (hcnd : (components.map Prod.fst).Nodup) :
    ∃ labels₂, labelItemByCluster N cx components = .ok
      ⟨labels₂,
       components.map (fun c => (c.1, (compItems nd c.2).dedup.length))
         ++ [(-1, (unclusteredItems N nd).length)],
       components.map (fun c => (c.1, (compItems nd c.2).dedup))
         ++ [(-1, unclusteredItems N nd)]⟩ := by
  have hcx : cx ≠ [] := by
    intro he
    subst he
    simp [getNodes, alookup] at hnodes
  have hlen : cx.length ≠ 0 := fun h₀ => hcx (List.length_eq_zero.mp h₀)
  obtain ⟨labels₂, hl⟩ := lcAux_ok N nd components (List.replicate N (-1)) [] []
    hfound hbound (fun _ _ => rfl) (fun _ _ => rfl) hcnd
  refine ⟨labels₂, ?_⟩
  unfold labelItemByCluster
  rw [if_neg hlen, hnodes]
  dsimp only
  rw [hl]
  simp only [Except.map, List.nil_append]
  have hnegS : alookup (-1 : ℤ)
      (components.map (fun c => (c.1, (compItems nd c.2).dedup.length))) = none := by
    rw [alookup_eq_none_iff]
    intro hmem
    rw [List.map_map] at hmem
    obtain ⟨c, hc, he⟩ := List.mem_map.mp hmem
    have := hcid c hc
    simp only [Function.comp] at he
    omega
  have hnegI : alookup (-1 : ℤ)
      (components.map (fun c => (c.1, (compItems nd c.2).dedup))) = none := by
    rw [alookup_eq_none_iff]
    intro hmem
    rw [List.map_map] at hmem
    obtain ⟨c, hc, he⟩ := List.mem_map.mp hmem
    have := hcid c hc
    simp only [Function.comp] at he
    omega
  rw [dictInsert_eq_append _ _ _ hnegS, dictInsert_eq_append _ _ _ hnegI]

theorem mem_foldr_union (ss : List (Finset ℕ)) (i : ℕ) :
    i ∈ ss.foldr (· ∪ ·) ∅ ↔ ∃ s ∈ ss, i ∈ s := by
  induction ss with
  | nil => simp
  | cons s rest ih => simp [Finset.mem_union, ih]

theorem sum_dedup_card (nd : List (String × List ℕ))
    (comps : List (ℤ × List String))
    (hdisj : comps.Pairwise (fun c₁ c₂ =>
      ∀ i ∈ compItems nd c₁.2, i ∉ compItems nd c₂.2)) :
    ((comps.map (fun c => (compItems nd c.2).dedup.length)).sum) =
      ((comps.map (fun c => (compItems nd c.2).toFinset)).foldr (· ∪ ·) ∅).card := by
  induction comps with
  | nil => simp
  | cons c rest ih =>
      obtain ⟨hd, hrest⟩ := List.pairwise_cons.mp hdisj
      have hdis : Disjoint ((compItems nd c.2).toFinset)
          ((rest.map (fun c₂ => (compItems nd c₂.2).toFinset)).foldr (· ∪ ·) ∅) := by
        rw [Finset.disjoint_left]
        intro i hi hi₂
        obtain ⟨s, hs, his⟩ := (mem_foldr_union _ i).mp hi₂
        obtain ⟨c₂, hc₂, rfl⟩ := List.mem_map.mp hs
        exact hd c₂ hc₂ i (List.mem_toFinset.mp hi) (List.mem_toFinset.mp his)
      simp only [List.map_cons, List.sum_cons, List.foldr_cons]
      rw [Finset.card_union_of_disjoint hdis, List.card_toFinset, ih hrest]

theorem foldr_union_eq_clustered (N : ℕ) (nd : List (String × List ℕ))
    (comps : List (ℤ × List String))
    (hndnd : (nd.map Prod.fst).Nodup)
    (hbound : ∀ e ∈ nd, ∀ i ∈ e.2, i < N)
    (hcover : ∀ e ∈ nd, ∃ c ∈ comps, e.1 ∈ c.2) :
    (comps.map (fun c => (compItems nd c.2).toFinset)).foldr (· ∪ ·) ∅ =
      ((List.range N).filter
        (fun i => !(decide (nodeIdsContaining nd i = [])))).toFinset := by
  ext i
  rw [mem_foldr_union, List.mem_toFinset, List.mem_filter, List.mem_range]
  constructor
  · rintro ⟨s, hs, his⟩
    obtain ⟨c, hc, rfl⟩ := List.mem_map.mp hs
    have hi : i ∈ compItems nd c.2 := List.mem_toFinset.mp his
    obtain ⟨nm, _, lst, hl, hil⟩ := (mem_compItems nd c.2 i).mp hi
    have hmem : (nm, lst) ∈ nd := alookup_mem nm lst nd hl
    refine ⟨hbound (nm, lst) hmem i hil, ?_⟩
    simp only [Bool.not_eq_true', decide_eq_false_iff_not]
    intro hnil
    unfold nodeIdsContaining at hnil
    have : (nm, lst) ∈ nd.filter (fun e => i ∈ e.2) :=
      List.mem_filter.mpr ⟨hmem, by simpa using hil⟩
    rw [List.map_eq_nil_iff] at hnil
    rw [hnil] at this
    simp at this
  · rintro ⟨hiN, hne⟩
    simp only [Bool.not_eq_true', decide_eq_false_iff_not] at hne
    have : ∃ e ∈ nd, i ∈ e.2 := by
      by_contra hno
      push_neg at hno
      apply hne
      unfold nodeIdsContaining
      rw [List.map_eq_nil_iff, List.filter_eq_nil_iff]
      intro e he
      simpa using hno e he
    obtain ⟨e, he, hie⟩ := this
    obtain ⟨c, hc, hnmc⟩ := hcover e he
    refine ⟨(compItems nd c.2).toFinset, List.mem_map.mpr ⟨c, hc, rfl⟩, ?_⟩
    rw [List.mem_toFinset, mem_compItems]
    exact ⟨e.1, hnmc, e.2, alookup_of_mem_nodup e.1 e.2 nd he hndnd, hie⟩

theorem clustered_card_add_unclustered (N : ℕ) (nd : List (String × List ℕ)) :
    ((List.range N).filter
      (fun i => !(decide (nodeIdsContaining nd i = [])))).length +
      (unclusteredItems N nd).length = N := by
  unfold unclusteredItems
  rw [← List.countP_eq_length_filter, ← List.countP_eq_length_filter]
  have h₁ := List.length_eq_countP_add_countP
    (fun i => decide (nodeIdsContaining nd i = [])) (List.range N)
  rw [List.length_range] at h₁
  have hc : List.countP (fun i => !(decide (nodeIdsContaining nd i = [])))
      (List.range N) = List.countP
      (fun a => decide ¬(decide (nodeIdsContaining nd a = []) = true))
      (List.range N) := by
    apply List.countP_congr
    intro a _
    simp
  rw [hc]
  omega

/-- C1 (amended): for every loaded complex whose nodes all hold item
indices below N, whose components cover every node, carry pairwise
distinct non-negative cluster ids, and have pairwise disjoint item
sets (no item lies in nodes of two different components), the sizes
recorded by `label_item_by_cluster` (including the synthetic
unclustered cluster -1) sum to N.  When an item lies in nodes of two
different components it is counted once per component and the sum
exceeds N (see the counterexample). -/
theorem C1_cluster_sizes_sum_eq (N : ℕ) (cx : ComplexDict)
    (components : List (ℤ × List String)) (nd : List (String × List ℕ))
    (hnodes : getNodes cx = some nd)
    (hndnd : (nd.map Prod.fst).Nodup)
    (hbound : ∀ e ∈ nd, ∀ i ∈ e.2, i < N)
    (hfound : ∀ c ∈ components, ∀ nm ∈ c.2, (alookup nm nd).isSome)
    (hcid : ∀ c ∈ components, 0 ≤ c.1)
    (hcnd : (components.map Prod.fst).Nodup)
    (hcover : ∀ e ∈ nd, ∃ c ∈ components, e.1 ∈ c.2)
    (hdisj : components.Pairwise (fun c₁ c₂ =>
      ∀ i ∈ compItems nd c₁.2, i ∉ compItems nd c₂.2)) :
    ∃ r, labelItemByCluster N cx components = .ok r ∧
      (r.clusterSizes.map Prod.snd).sum = N := by
  obtain ⟨labels₂, hok⟩ := labelItemByCluster_ok N cx components nd hnodes
    hbound hfound hcid hcnd
  refine ⟨_, hok, ?_⟩
  simp only [List.map_append, List.map_map, List.sum_append, List.map_cons,
    List.map_nil, List.sum_cons, List.sum_nil]
  have h₁ : (components.map
      (Prod.snd ∘ fun c => (c.1, (compItems nd c.2).dedup.length))).sum =
      (components.map (fun c => (compItems nd c.2).dedup.length)).sum := rfl
  rw [h₁, sum_dedup_card nd components hdisj,
    foldr_union_eq_clustered N nd components hndnd hbound hcover,
    List.toFinset_card_of_nodup ((List.nodup_range N).filter _)]
  have := clustered_card_add_unclustered N nd
  omega

/-- Witness for `C1_cluster_sizes_sum_eq`: the spec §8 scenario with
nodes `A = [0, 1]` and `B = [1, 2]` in one component. -/
theorem C1_cluster_sizes_sum_eq_witness :
    ∃ r, labelItemByCluster 3
      [("nodes", CVal.nodesVal [("A", [0, 1]), ("B", [1, 2])])]
      [(0, ["A", "B"])] = .ok r ∧
      (r.clusterSizes.map Prod.snd).sum = 3 :=
  C1_cluster_sizes_sum_eq 3
    [("nodes", CVal.nodesVal [("A", [0, 1]), ("B", [1, 2])])]
    [(0, ["A", "B"])] [("A", [0, 1]), ("B", [1, 2])]
    (by decide) (by decide) (by decide) (by decide) (by decide) (by decide)
    (by decide) (by decide)

/-- C1 (counterexample): when an item lies in nodes of two different
components (item 0 in nodes A and B, mapped to clusters 0 and 1), the
per-cluster sizes (including cluster -1) sum to 3 even though N = 2. -/
theorem C1_counterexample_overlap_inflates_sum :
    labelItemByCluster 2 [("nodes", CVal.nodesVal [("A", [0]), ("B", [0])])]
      [(0, ["A"]), (1, ["B"])] =
      .ok ⟨[1, -1], [(0, 1), (1, 1), (-1, 1)], [(0, [0]), (1, [0]), (-1, [1])]⟩ ∧
    (([(0, 1), (1, 1), (-1, 1)] : List (ℤ × ℕ)).map Prod.snd).sum = 3 ∧
    (3 : ℕ) ≠ 2 :=
  ⟨by rfl, by rfl, by decide⟩

/-! ### Claim C8: items in multiple groups -/

theorem dictInsert_cons_pos {α β : Type} [DecidableEq α] (k : α) (v v₁ : β)
    (tl : List (α × β)) : dictInsert k v ((k, v₁) :: tl) = (k, v) :: tl := by
  simp [dictInsert]

theorem dictInsert_cons_neg {α β : Type} [DecidableEq α] (k k₁ : α) (v v₁ : β)
    (tl : List (α × β)) (h : k₁ ≠ k) :
    dictInsert k v ((k₁, v₁) :: tl) = (k₁, v₁) :: dictInsert k v tl := by
  simp [dictInsert, h]

theorem mem_keys_dictInsert {α β : Type} [DecidableEq α] (k a : α) (v : β)
    (l : List (α × β)) :
    a ∈ (dictInsert k v l).map Prod.fst ↔ a = k ∨ a ∈ l.map Prod.fst := by
  induction l with
  | nil => simp [dictInsert]
  | cons hd tl ih =>
      obtain ⟨k₁, v₁⟩ := hd
      by_cases h₁ : k₁ = k
      · subst h₁
        rw [dictInsert_cons_pos]
        simp
      · rw [dictInsert_cons_neg _ _ _ _ _ h₁]
        simp only [List.map_cons, List.mem_cons, ih]
        tauto

theorem dictInsert_keys_nodup {α β : Type} [DecidableEq α] (k : α) (v : β)
    (l : List (α × β)) (h : (l.map Prod.fst).Nodup) :
    ((dictInsert k v l).map Prod.fst).Nodup := by
  induction l with
  | nil => simp [dictInsert]
  | cons hd tl ih =>
      obtain ⟨k₁, v₁⟩ := hd
      simp only [List.map_cons, List.nodup_cons] at h
      by_cases h₁ : k₁ = k
      · subst h₁
        rw [dictInsert_cons_pos]
        simp only [List.map_cons, List.nodup_cons]
        exact h
      · rw [dictInsert_cons_neg _ _ _ _ _ h₁]
        simp only [List.map_cons, List.nodup_cons]
        refine ⟨?_, ih h.2⟩
        rw [mem_keys_dictInsert]
        rintro (h₂ | h₂)
        · exact h₁ h₂
        · exact h.1 h₂

/-- One pass of the inner `value_counts` loop. -/
def vcInner (vs : List ℕ) (vc : List (ℕ × ℕ)) : List (ℕ × ℕ) :=
  vs.foldl (fun vc₂ v => dictInsert v ((alookup v vc₂).getD 0 + 1) vc₂) vc

theorem valueCounts_eq_foldl (d : List (ℤ × List ℕ)) :
    valueCounts d = d.foldl (fun vc e => vcInner e.2 vc) [] := rfl

theorem vcInner_getD (vs : List ℕ) (vc : List (ℕ × ℕ)) (v : ℕ) :
    (alookup v (vcInner vs vc)).getD 0 =
      (alookup v vc).getD 0 + vs.count v := by
  induction vs generalizing vc with
  | nil => simp [vcInner]
  | cons u rest ih =>
      have hstep : vcInner (u :: rest) vc =
          vcInner rest (dictInsert u ((alookup u vc).getD 0 + 1) vc) := rfl
      rw [hstep, ih]
      by_cases h : v = u
      · subst h
        rw [alookup_dictInsert_self]
        simp [List.count_cons]
        omega
      · rw [alookup_dictInsert_ne u v _ vc (fun he => h he.symm)]
        simp [List.count_cons, h]

theorem vcInner_isSome (vs : List ℕ) (vc : List (ℕ × ℕ)) (v : ℕ) :
    (alookup v (vcInner vs vc)).isSome ↔ (alookup v vc).isSome ∨ v ∈ vs := by
  induction vs generalizing vc with
  | nil => simp [vcInner]
  | cons u rest ih =>
      have hstep : vcInner (u :: rest) vc =
          vcInner rest (dictInsert u ((alookup u vc).getD 0 + 1) vc) := rfl
      rw [hstep, ih]
      by_cases h : v = u
      · subst h
        rw [alookup_dictInsert_self]
        simp
      · rw [alookup_dictInsert_ne u v _ vc (fun he => h he.symm)]
        simp [h]

theorem vcInner_keys_nodup (vs : List ℕ) (vc : List (ℕ × ℕ))
    (h : (vc.map Prod.fst).Nodup) : ((vcInner vs vc).map Prod.fst).Nodup := by
  induction vs generalizing vc with
  | nil => exact h
  | cons u rest ih =>
      have hstep : vcInner (u :: rest) vc =
          vcInner rest (dictInsert u ((alookup u vc).getD 0 + 1) vc) := rfl
      rw [hstep]
      exact ih _ (dictInsert_keys_nodup _ _ _ h)

theorem valueCounts_getD (d : List (ℤ × List ℕ)) (v : ℕ) :
    (alookup v (valueCounts d)).getD 0 =
      (d.map (fun e => e.2.count v)).sum := by
  rw [valueCounts_eq_foldl]
  suffices h : ∀ vc : List (ℕ × ℕ),
      (alookup v (d.foldl (fun vc e => vcInner e.2 vc) vc)).getD 0 =
        (alookup v vc).getD 0 + (d.map (fun e => e.2.count v)).sum by
    simpa [alookup] using h []
  induction d with
  | nil => simp [alookup]
  | cons e rest ih =>
      intro vc
      simp only [List.foldl_cons, List.map_cons, List.sum_cons]
      rw [ih, vcInner_getD]
      try omega

theorem valueCounts_isSome (d : List (ℤ × List ℕ)) (v : ℕ) :
    (alookup v (valueCounts d)).isSome ↔ ∃ e ∈ d, v ∈ e.2 := by
  rw [valueCounts_eq_foldl]
  suffices h : ∀ vc : List (ℕ × ℕ),
      (alookup v (d.foldl (fun vc e => vcInner e.2 vc) vc)).isSome ↔
        ((alookup v vc).isSome ∨ ∃ e ∈ d, v ∈ e.2) by
    simpa [alookup] using h []
  induction d with
  | nil => simp [alookup]
  | cons e rest ih =>
      intro vc
      simp only [List.foldl_cons]
      rw [ih, vcInner_isSome]
      constructor
      · rintro ((h | h) | ⟨x, hx, hvx⟩)
        · exact Or.inl h
        · exact Or.inr ⟨e, List.mem_cons_self _ _, h⟩
        · exact Or.inr ⟨x, List.mem_cons_of_mem _ hx, hvx⟩
      · rintro (h | ⟨x, hx, hvx⟩)
        · exact Or.inl (Or.inl h)
        · rcases List.mem_cons.mp hx with h₂ | h₂
          · subst h₂
            exact Or.inl (Or.inr hvx)
          · exact Or.inr ⟨x, h₂, hvx⟩

theorem valueCounts_keys_nodup (d : List (ℤ × List ℕ)) :
    ((valueCounts d).map Prod.fst).Nodup := by
  rw [valueCounts_eq_foldl]
  suffices h : ∀ vc : List (ℕ × ℕ), (vc.map Prod.fst).Nodup →
      ((d.foldl (fun vc e => vcInner e.2 vc) vc).map Prod.fst).Nodup by
    exact h [] (by simp)
  induction d with
  | nil => exact fun vc h => h
  | cons e rest ih =>
      intro vc h
      simp only [List.foldl_cons]
      exact ih _ (vcInner_keys_nodup _ _ h)

theorem foldl_append_if {α β : Type} (p : α → Prop) [DecidablePred p]
    (g : α → β) (l : List α) (acc : List β) :
    l.foldl (fun ov e => if p e then ov ++ [g e] else ov) acc =
      acc ++ (l.filter (fun e => p e)).map g := by
  induction l generalizing acc with
  | nil => simp
  | cons e rest ih =>
      simp only [List.foldl_cons, List.filter_cons]
      by_cases h : p e
      · rw [if_pos h, ih, if_pos (decide_eq_true h)]
        simp [List.append_assoc]
      · rw [if_neg h, ih, if_neg (by simpa using h)]

theorem getItemsInMultipleGroups_eq (d : List (ℤ × List ℕ)) :
    getItemsInMultipleGroups d =
      ((valueCounts d).filter (fun e => 1 < e.2)).map
        (fun e => (e.1, (d.filter (fun g => e.1 ∈ g.2)).map Prod.fst)) := by
  unfold getItemsInMultipleGroups
  exact (foldl_append_if (fun e => 1 < e.2)
    (fun e => (e.1, (d.filter (fun g => e.1 ∈ g.2)).map Prod.fst))
    (valueCounts d) []).trans (List.nil_append _)

theorem getItemsInMultipleGroups_empty_iff (d : List (ℤ × List ℕ)) :
    getItemsInMultipleGroups d = [] ↔
      ∀ v : ℕ, (d.map (fun e => e.2.count v)).sum ≤ 1 := by
  rw [getItemsInMultipleGroups_eq, List.map_eq_nil_iff, List.filter_eq_nil_iff]
  constructor
  · intro h v
    by_contra hgt
    push_neg at hgt
    have hsome : (alookup v (valueCounts d)).isSome := by
      rw [valueCounts_isSome]
      by_contra hno
      push_neg at hno
      have : (d.map (fun e => e.2.count v)).sum = 0 := by
        rw [List.sum_eq_zero]
        intro x hx
        obtain ⟨e, he, rfl⟩ := List.mem_map.mp hx
        exact List.count_eq_zero.mpr (hno e he)
      omega
    obtain ⟨n, hn⟩ := Option.isSome_iff_exists.mp hsome
    have hval : n = (d.map (fun e => e.2.count v)).sum := by
      have := valueCounts_getD d v
      rw [hn] at this
      simpa using this
    have hmem := alookup_mem v n (valueCounts d) hn
    have := h (v, n) hmem
    simp at this
    omega
  · intro h e he
    simp only [decide_eq_true_eq]
    intro hgt
    have hl := alookup_of_mem_nodup e.1 e.2 (valueCounts d) he
      (valueCounts_keys_nodup d)
    have := valueCounts_getD d e.1
    rw [hl] at this
    simp at this
    have := h e.1
    omega

theorem two_le_length_of_mem_ne {α : Type} {l : List α} {a b : α}
    (ha : a ∈ l) (hb : b ∈ l) (hne : a ≠ b) : 2 ≤ l.length := by
  cases l with
  | nil => simp at ha
  | cons x xs =>
      cases xs with
      | nil =>
          simp at ha hb
          exact absurd (ha.trans hb.symm) hne
      | cons y ys => simp

theorem exists_ne_of_two_le_length {α : Type} {l : List α}
    (h₂ : 2 ≤ l.length) (hnd : l.Nodup) : ∃ a ∈ l, ∃ b ∈ l, a ≠ b := by
  cases l with
  | nil => simp at h₂
  | cons x xs =>
      cases xs with
      | nil => simp at h₂
      | cons y ys =>
          refine ⟨x, List.mem_cons_self _ _, y,
            List.mem_cons_of_mem _ (List.mem_cons_self _ _), ?_⟩
          intro he
          subst he
          simp at hnd

theorem not_in_comp_of_unclustered (N : ℕ) (nd : List (String × List ℕ))
    (v : ℕ) (nodeNames : List String) (hv : v ∈ unclusteredItems N nd) :
    v ∉ compItems nd nodeNames := by
  intro hc
  obtain ⟨nm, _, lst, hl, hil⟩ := (mem_compItems nd nodeNames v).mp hc
  have hmem : (nm, lst) ∈ nd := alookup_mem nm lst nd hl
  unfold unclusteredItems at hv
  have := (List.mem_filter.mp hv).2
  simp only [decide_eq_true_eq] at this
  unfold nodeIdsContaining at this
  rw [List.map_eq_nil_iff] at this
  have hfil : (nm, lst) ∈ nd.filter (fun e => v ∈ e.2) :=
    List.mem_filter.mpr ⟨hmem, by simpa using hil⟩
  rw [this] at hfil
  simp at hfil

theorem sum_count_eq_countP (nd : List (String × List ℕ))
    (comps : List (ℤ × List String)) (v : ℕ) :
    (comps.map (fun c => ((compItems nd c.2).dedup).count v)).sum =
      comps.countP (fun c => v ∈ compItems nd c.2) := by
  induction comps with
  | nil => simp
  | cons c rest ih =>
      simp only [List.map_cons, List.sum_cons, List.countP_cons, ih]
      by_cases hv : v ∈ compItems nd c.2
      · rw [List.count_eq_one_of_mem (List.nodup_dedup _)
          (List.mem_dedup.mpr hv), if_pos (decide_eq_true hv)]
        omega
      · rw [List.count_eq_zero.mpr (fun hm => hv (List.mem_dedup.mp hm)),
          if_neg (fun h => hv (of_decide_eq_true h))]
        omega

theorem occ_split (N : ℕ) (nd : List (String × List ℕ))
    (comps : List (ℤ × List String)) (v : ℕ) :
    (((comps.map (fun c => (c.1, (compItems nd c.2).dedup))
      ++ [((-1 : ℤ), unclusteredItems N nd)]).map
        (fun e => e.2.count v)).sum) =
    comps.countP (fun c => v ∈ compItems nd c.2) +
      (if v ∈ unclusteredItems N nd then 1 else 0) := by
  rw [List.map_append, List.sum_append]
  have hcc : (comps.map
      (fun c => (c.1, (compItems nd c.2).dedup))).map
        (fun e => e.2.count v) =
      comps.map (fun c => ((compItems nd c.2).dedup).count v) := by
    rw [List.map_map]
    rfl
  rw [hcc, sum_count_eq_countP]
  by_cases hu : v ∈ unclusteredItems N nd
  · rw [if_pos hu]
    have h₁ : (((-1 : ℤ), unclusteredItems N nd)).2.count v = 1 :=
      List.count_eq_one_of_mem
        (List.Nodup.filter _ (List.nodup_range N)) hu
    simp only [List.map_cons, List.map_nil, List.sum_cons, List.sum_nil]
    rw [h₁]
    omega
  · rw [if_neg hu]
    have h₁ : (((-1 : ℤ), unclusteredItems N nd)).2.count v = 0 :=
      List.count_eq_zero.mpr hu
    simp only [List.map_cons, List.map_nil, List.sum_cons, List.sum_nil]
    rw [h₁]
    omega

/-- C8: the overlap report of `get_items_in_multiple_groups` over the
pre-overwrite per-cluster item lists is empty exactly when no item
belongs to nodes of two different connected components, and every
reported item is mapped to the keys of the per-cluster lists containing
it. -/
theorem C8_items_in_multiple_groups (N : ℕ) (cx : ComplexDict)
    (components : List (ℤ × List String)) (nd : List (String × List ℕ))
    (r : ClusterResult)
    (hnodes : getNodes cx = some nd)
    (hbound : ∀ e ∈ nd, ∀ i ∈ e.2, i < N)
    (hfound : ∀ c ∈ components, ∀ nm ∈ c.2, (alookup nm nd).isSome)
    (hcid : ∀ c ∈ components, 0 ≤ c.1)
    (hcnd : (components.map Prod.fst).Nodup)
    (hok : labelItemByCluster N cx components = .ok r) :
    (getItemsInMultipleGroups r.itemsDict = [] ↔
      ¬∃ i : ℕ, ∃ c₁ ∈ components, ∃ c₂ ∈ components, c₁ ≠ c₂ ∧
        i ∈ compItems nd c₁.2 ∧ i ∈ compItems nd c₂.2) ∧
    (∀ i l, alookup i (getItemsInMultipleGroups r.itemsDict) = some l →
      l = (r.itemsDict.filter (fun g => i ∈ g.2)).map Prod.fst) := by
  obtain ⟨labels₂, hok₂⟩ := labelItemByCluster_ok N cx components nd hnodes
    hbound hfound hcid hcnd
  rw [hok] at hok₂
  have hr := Except.ok.inj hok₂
  have hd : r.itemsDict =
      components.map (fun c => (c.1, (compItems nd c.2).dedup))
        ++ [(-1, unclusteredItems N nd)] := by
    rw [hr]
  constructor
  · rw [getItemsInMultipleGroups_empty_iff, hd]
    have hocc := occ_split N nd components
    constructor
    · intro h
      rintro ⟨i, c₁, hc₁, c₂, hc₂, hne, hi₁, hi₂⟩
      have h₂ := h i
      rw [hocc i] at h₂
      have hcnt : 2 ≤ components.countP (fun c => i ∈ compItems nd c.2) := by
        rw [List.countP_eq_length_filter]
        refine two_le_length_of_mem_ne ?_ ?_ hne
        · exact List.mem_filter.mpr ⟨hc₁, by simpa using hi₁⟩
        · exact List.mem_filter.mpr ⟨hc₂, by simpa using hi₂⟩
      omega
    · intro h v
      rw [hocc v]
      by_cases hu : v ∈ unclusteredItems N nd
      · have : components.countP (fun c => v ∈ compItems nd c.2) = 0 := by
          rw [List.countP_eq_zero]
          intro c _
          simpa using not_in_comp_of_unclustered N nd v c.2 hu
        simp [this, hu]
      · simp only [if_neg hu, add_zero]
        by_contra hgt
        push_neg at hgt
        rw [List.countP_eq_length_filter] at hgt
        have hfnd : (components.filter
            (fun c => decide (v ∈ compItems nd c.2))).Nodup :=
          List.Nodup.filter _ (hcnd.of_map)
        obtain ⟨c₁, hc₁, c₂, hc₂, hne⟩ :=
          exists_ne_of_two_le_length (by omega) hfnd
        have h₁ := List.mem_filter.mp hc₁
        have h₂ := List.mem_filter.mp hc₂
        exact h ⟨v, c₁, h₁.1, c₂, h₂.1, hne,
          by simpa using h₁.2, by simpa using h₂.2⟩
  · intro i l hl
    have hmem := alookup_mem i l _ hl
    rw [getItemsInMultipleGroups_eq] at hmem
    obtain ⟨e, _, he⟩ := List.mem_map.mp hmem
    have hfst : e.1 = i := congrArg Prod.fst he
    have hsnd := congrArg Prod.snd he
    simp only at hsnd
    rw [← hsnd, hfst]

/-- Witness for `C8_items_in_multiple_groups`: the spec §8 scenario with
nodes A and B sharing item 1 inside one component reports no
cluster-level overlap. -/
theorem C8_items_in_multiple_groups_witness :
    (getItemsInMultipleGroups
        ((⟨[0, 0, 0], [(0, 3), (-1, 0)], [(0, [0, 1, 2]), (-1, [])]⟩ :
          ClusterResult).itemsDict) = [] ↔
      ¬∃ i : ℕ, ∃ c₁ ∈ [((0 : ℤ), ["A", "B"])],
        ∃ c₂ ∈ [((0 : ℤ), ["A", "B"])], c₁ ≠ c₂ ∧
        i ∈ compItems [("A", [0, 1]), ("B", [1, 2])] c₁.2 ∧
        i ∈ compItems [("A", [0, 1]), ("B", [1, 2])] c₂.2) ∧
    (∀ i l, alookup i (getItemsInMultipleGroups
        ((⟨[0, 0, 0], [(0, 3), (-1, 0)], [(0, [0, 1, 2]), (-1, [])]⟩ :
          ClusterResult).itemsDict)) = some l →
      l = (((⟨[0, 0, 0], [(0, 3), (-1, 0)], [(0, [0, 1, 2]), (-1, [])]⟩ :
          ClusterResult).itemsDict).filter
        (fun g => i ∈ g.2)).map Prod.fst) :=
  C8_items_in_multiple_groups 3
    [("nodes", CVal.nodesVal [("A", [0, 1]), ("B", [1, 2])])]
    [(0, ["A", "B"])] [("A", [0, 1]), ("B", [1, 2])]
    ⟨[0, 0, 0], [(0, 3), (-1, 0)], [(0, [0, 1, 2]), (-1, [])]⟩
    (by decide) (by decide) (by decide) (by decide) (by decide) (by rfl)

/-! ### Minimal-std column selection (data_utils.py, model.py) -/

/-- Code point lexicographic comparison on strings, the order numpy
uses when `np.intersect1d` sorts string column names. -/
def lexLe : List Char → List Char → Bool
  | [], _ => true
  | _ :: _, [] => false
  | a :: as, b :: bs =>
      if a.val < b.val then true
      else if b.val < a.val then false
      else lexLe as bs

def strLeB (a b : String) : Bool := lexLe a.data b.data

/-- `np.intersect1d(a, b)`: the SORTED unique values common to both
inputs (numpy sorts the result; it does not keep either input order). -/
def intersect1d (a b : List String) : List String :=
  List.insertionSort (fun x y => strLeB x y = true)
    ((a.filter (fun x => x ∈ b)).dedup)

/-- The cleaned DataFrame: columns in schema order, each with its values
indexed by row position. -/
abbrev CleanDF := List (String × List ℚ)

/-- The series `df.iloc[mask][c]`: `none` models the KeyError of a
missing column and the IndexError of an out-of-range positional index. -/
def subCol (clean : CleanDF) (mask : List ℕ) (c : String) : Option (List ℚ) :=
  (alookup c clean).bind (fun vals => omapM (fun i => vals[i]?) mask)

/-- The scan of `Series.argmin`: keep the current best index and value,
replacing only on a strictly smaller value (so the FIRST minimum wins). -/
def argminAux : List ℚ → ℕ → ℚ → ℕ → ℕ
  | [], bi, _, _ => bi
  | v :: rest, bi, bv, i =>
      if v < bv then argminAux rest i v (i + 1)
      else argminAux rest bi bv (i + 1)

def argminQ : List ℚ → ℕ
  | [] => 0
  | v :: rest => argminAux rest 0 v 1

/-- `get_minimal_std(df, mask, density_cols)`: the label of the column
of `df.iloc[mask][density_cols]` whose standard deviation is smallest,
the first such column on ties.  The comparison is embedded as the same
comparison of sample variances `svar`, which orders identically when the
mask holds at least two rows.  On masks of fewer than two rows every
pandas `std(ddof=1)` is `NaN` and `Series.argmin` over an all-`NaN`
series degenerates (index `-1`, i.e. the last column, or an exception),
which this embedding does not model: theorems about it carry a
`2 ≤ mask.length` hypothesis. -/
def get_minimal_std (clean : CleanDF) (mask : List ℕ)
    (densityCols : List String) : Option String :=
  (omapM (fun c => (subCol clean mask c).map svar) densityCols).bind
    (fun keys => densityCols[argminQ keys]?)

/-- The eligible columns of `compute_node_descriptions`:
`np.intersect1d(raw numeric columns, clean columns)` — note numpy
returns these SORTED, not in schema order. -/
def eligibleCols (raw : RawDF) (clean : CleanDF) : List String :=
  intersect1d (rawNumericCols raw) (clean.map Prod.fst)

/-- Modelled from the claim wording (refinement comparison only): the
canonical order the claim describes, namely the order columns appear in
the cleaned schema, intersected with the raw numeric columns. -/
def specCanonicalOrder (raw : RawDF) (clean : CleanDF) : List String :=
  (clean.map Prod.fst).filter (fun c => c ∈ rawNumericCols raw)

/-- `Model.compute_node_descriptions`: per node, the minimal-std label
over the node mask and the node size `len(mask)`. -/
def computeNodeDescriptions (nd : List (String × List ℕ)) (raw : RawDF)
    (clean : CleanDF) : Option (List (String × String × ℕ)) :=
  omapM (fun e => (get_minimal_std clean e.2 (eligibleCols raw clean)).map
    (fun lbl => (e.1, lbl, e.2.length))) nd

theorem argminAux_spec (l : List ℚ) (bv : ℚ) (bi i : ℕ) :
    (argminAux l bi bv i = bi ∧ ∀ a ∈ l, bv ≤ a) ∨
    (∃ k, ∃ hk : k < l.length, argminAux l bi bv i = i + k ∧
      (∀ a ∈ l, l.get ⟨k, hk⟩ ≤ a) ∧ l.get ⟨k, hk⟩ < bv ∧
      (∀ k₂ (hk₂ : k₂ < k), l.get ⟨k, hk⟩ < l.get ⟨k₂, Nat.lt_trans hk₂ hk⟩)) := by
  induction l generalizing bv bi i with
  | nil => exact Or.inl ⟨rfl, by simp⟩
  | cons v rest ih =>
      by_cases hv : v < bv
      · rw [show argminAux (v :: rest) bi bv i = argminAux rest i v (i + 1)
          from by rw [argminAux, if_pos hv]]
        rcases ih v i (i + 1) with ⟨he, hall⟩ | ⟨k, hk, he, hmin, hlt, hfirst⟩
        · refine Or.inr ⟨0, by simp, by omega, ?_, by simpa using hv, by omega⟩
          intro a ha
          rcases List.mem_cons.mp ha with h | h
          · simp [h]
          · simpa using hall a h
        · refine Or.inr ⟨k + 1, by simpa using Nat.succ_lt_succ hk, by omega,
            ?_, ?_, ?_⟩
          · intro a ha
            rcases List.mem_cons.mp ha with h | h
            · subst h
              show rest.get ⟨k, hk⟩ ≤ a
              exact le_of_lt hlt
            · exact hmin a h
          · show rest.get ⟨k, hk⟩ < bv
            exact lt_trans hlt hv
          · intro k₂ hk₂
            match k₂, hk₂ with
            | 0, _ =>
                show rest.get ⟨k, hk⟩ < v
                exact hlt
            | k₃ + 1, hk₂ =>
                show rest.get ⟨k, hk⟩ < rest.get ⟨k₃, _⟩
                exact hfirst k₃ (Nat.lt_of_succ_lt_succ hk₂)
      · rw [show argminAux (v :: rest) bi bv i = argminAux rest bi bv (i + 1)
          from by rw [argminAux, if_neg hv]]
        rcases ih bv bi (i + 1) with ⟨he, hall⟩ | ⟨k, hk, he, hmin, hlt, hfirst⟩
        · refine Or.inl ⟨he, ?_⟩
          intro a ha
          rcases List.mem_cons.mp ha with h | h
          · subst h; exact le_of_not_lt hv
          · exact hall a h
        · refine Or.inr ⟨k + 1, by simpa using Nat.succ_lt_succ hk, by omega,
            ?_, ?_, ?_⟩
          · intro a ha
            rcases List.mem_cons.mp ha with h | h
            · subst h
              show rest.get ⟨k, hk⟩ ≤ a
              exact le_of_lt (lt_of_lt_of_le hlt (le_of_not_lt hv))
            · exact hmin a h
          · show rest.get ⟨k, hk⟩ < bv
            exact hlt
          · intro k₂ hk₂
            match k₂, hk₂ with
            | 0, _ =>
                show rest.get ⟨k, hk⟩ < v
                exact lt_of_lt_of_le hlt (le_of_not_lt hv)
            | k₃ + 1, hk₂ =>
                show rest.get ⟨k, hk⟩ < rest.get ⟨k₃, _⟩
                exact hfirst k₃ (Nat.lt_of_succ_lt_succ hk₂)

theorem argminQ_spec (keys : List ℚ) (hne : keys ≠ []) :
    ∃ hj : argminQ keys < keys.length,
      (∀ i (hi : i < keys.length),
        keys.get ⟨argminQ keys, hj⟩ ≤ keys.get ⟨i, hi⟩) ∧
      (∀ i (hi : i < argminQ keys),
        keys.get ⟨argminQ keys, hj⟩ < keys.get ⟨i, Nat.lt_trans hi hj⟩) := by
  match keys, hne with
  | v :: rest, _ =>
      have hq : argminQ (v :: rest) = argminAux rest 0 v 1 := rfl
      rcases argminAux_spec rest v 0 1 with ⟨he, hall⟩ | ⟨k, hk, he, hmin, hlt, hfirst⟩
      · rw [hq, he]
        refine ⟨by simp, ?_, ?_⟩
        · intro i hi
          match i, hi with
          | 0, _ => exact le_refl _
          | i₂ + 1, hi =>
              show v ≤ rest.get ⟨i₂, _⟩
              exact hall _ (rest.get_mem _ _)
        · intro i hi
          simp at hi
      · have hj : argminQ (v :: rest) = k + 1 := by rw [hq, he]; omega
        rw [hj]
        have hk₂ : k + 1 < (v :: rest).length := by simpa using Nat.succ_lt_succ hk
        refine ⟨hk₂, ?_, ?_⟩
        · intro i hi
          match i, hi with
          | 0, _ =>
              show rest.get ⟨k, hk⟩ ≤ v
              exact le_of_lt hlt
          | i₂ + 1, hi =>
              show rest.get ⟨k, hk⟩ ≤ rest.get ⟨i₂, _⟩
              exact hmin _ (rest.get_mem _ _)
        · intro i hi
          match i, hi with
          | 0, _ =>
              show rest.get ⟨k, hk⟩ < v
              exact hlt
          | i₂ + 1, hi =>
              show rest.get ⟨k, hk⟩ < rest.get ⟨i₂, _⟩
              exact hfirst i₂ (Nat.lt_of_succ_lt_succ hi)

theorem omapM_length {α β : Type} (f : α → Option β) (l : List α)
    (l₂ : List β) (h : omapM f l = some l₂) : l₂.length = l.length :=
  (omapM_forall₂ f l l₂ h).length_eq.symm

theorem omapM_get {α β : Type} (f : α → Option β) (l : List α) (l₂ : List β)
    (h : omapM f l = some l₂) (i : ℕ) (hi : i < l.length)
    (hi₂ : i < l₂.length) :
    f (l.get ⟨i, hi⟩) = some (l₂.get ⟨i, hi₂⟩) := by
  induction l generalizing l₂ i with
  | nil => simp at hi
  | cons a rest ih =>
      unfold omapM at h
      cases hf : f a with
      | none => rw [hf] at h; simp at h
      | some b =>
          rw [hf] at h
          cases hr : omapM f rest with
          | none => rw [hr] at h; simp at h
          | some bs =>
              rw [hr] at h
              simp at h
              subst h
              match i with
              | 0 => simpa using hf
              | i₂ + 1 =>
                  exact ih bs hr i₂ (by simpa using hi) (by simpa using hi₂)

/-- C2 (amended): over a non-empty eligible column set (raw-numeric AND
present in clean) and a mask of at least two rows — on smaller masks
every pandas `std(ddof=1)` is `NaN` and `argmin` over the all-`NaN`
series degenerates, a regime the rational embedding does not model —
`get_minimal_std` returns the column whose masked values have the
smallest standard deviation (compared as sample variances); a
zero-variance column always beats nonzero-variance ones; and on ties
the selected column is the FIRST in the eligible set's canonical order,
which is the SORTED (`np.intersect1d`) order of the eligible names, not
the cleaned schema order claimed. -/
theorem C2_minimal_std_selection (raw : RawDF) (clean : CleanDF)
    (mask : List ℕ) (keys : List ℚ)
    (hmask : 2 ≤ mask.length)
    (hkeys : omapM (fun c => (subCol clean mask c).map svar)
      (eligibleCols raw clean) = some keys)
    (hne : eligibleCols raw clean ≠ []) :
    ∃ c vc,
      get_minimal_std clean mask (eligibleCols raw clean) = some c ∧
      subCol clean mask c = some vc ∧
      (∃ hj : argminQ keys < (eligibleCols raw clean).length,
        (eligibleCols raw clean).get ⟨argminQ keys, hj⟩ = c ∧
        (∀ i (hi : i < argminQ keys), ∀ vi,
          subCol clean mask
            ((eligibleCols raw clean).get ⟨i, Nat.lt_trans hi hj⟩) = some vi →
          svar vc < svar vi)) ∧
      (∀ d ∈ eligibleCols raw clean, ∀ vd,
        subCol clean mask d = some vd → svar vc ≤ svar vd) ∧
      (∀ d ∈ eligibleCols raw clean, ∀ vd,
        subCol clean mask d = some vd → svar vd = 0 → svar vc = 0) := by
  have hlen : keys.length = (eligibleCols raw clean).length :=
    omapM_length _ _ _ hkeys
  have hkne : keys ≠ [] := by
    intro he
    subst he
    simp at hlen
    exact hne (List.length_eq_zero.mp hlen.symm)
  obtain ⟨hj, hmin, hfirst⟩ := argminQ_spec keys hkne
  have hjE : argminQ keys < (eligibleCols raw clean).length := hlen ▸ hj
  have hcval := omapM_get _ _ _ hkeys (argminQ keys) hjE hj
  cases hsub : subCol clean mask
      ((eligibleCols raw clean).get ⟨argminQ keys, hjE⟩) with
  | none => rw [hsub] at hcval; simp at hcval
  | some vc =>
      rw [hsub] at hcval
      simp only [Option.map_some'] at hcval
      have hvc : svar vc = keys.get ⟨argminQ keys, hj⟩ := Option.some.inj hcval
      refine ⟨(eligibleCols raw clean).get ⟨argminQ keys, hjE⟩, vc, ?_, hsub,
        ⟨hjE, rfl, ?_⟩, ?_, ?_⟩
      · unfold get_minimal_std
        rw [hkeys]
        simp only [Option.some_bind]
        exact List.getElem?_eq_getElem hjE
      · intro i hi vi hvi
        have hiE : i < (eligibleCols raw clean).length :=
          Nat.lt_trans hi hjE
        have hik : i < keys.length := hlen ▸ hiE
        have hival := omapM_get _ _ _ hkeys i hiE hik
        rw [hvi] at hival
        simp only [Option.map_some'] at hival
        have : svar vi = keys.get ⟨i, hik⟩ := Option.some.inj hival
        rw [hvc, this]
        exact hfirst i hi
      · intro d hd vd hvd
        obtain ⟨⟨i, hiE⟩, hdi⟩ := List.mem_iff_get.mp hd
        have hik : i < keys.length := hlen ▸ hiE
        have hival := omapM_get _ _ _ hkeys i hiE hik
        rw [hdi, hvd] at hival
        simp only [Option.map_some'] at hival
        have : svar vd = keys.get ⟨i, hik⟩ := Option.some.inj hival
        rw [hvc, this]
        exact hmin i hik
      · intro d hd vd hvd hz
        have hle : svar vc ≤ svar vd := by
          obtain ⟨⟨i, hiE⟩, hdi⟩ := List.mem_iff_get.mp hd
          have hik : i < keys.length := hlen ▸ hiE
          have hival := omapM_get _ _ _ hkeys i hiE hik
          rw [hdi, hvd] at hival
          simp only [Option.map_some'] at hival
          have : svar vd = keys.get ⟨i, hik⟩ := Option.some.inj hival
          rw [hvc, this]
          exact hmin i hik
        have hvclen : vc.length = mask.length := by
          unfold subCol at hsub
          cases ha : alookup ((eligibleCols raw clean).get
              ⟨argminQ keys, hjE⟩) clean with
          | none => rw [ha] at hsub; simp at hsub
          | some vals =>
              rw [ha] at hsub
              simp only [Option.some_bind] at hsub
              exact omapM_length _ _ _ hsub
        have hge : 0 ≤ svar vc := svar_nonneg vc (hvclen ▸ hmask)
        rw [hz] at hle
        linarith

/-- Witness for `C2_minimal_std_selection` on a two-column frame. -/
theorem C2_minimal_std_selection_witness :
    ∃ c vc,
      get_minimal_std [("a", [1, 2]), ("b", [5, 7])] [0, 1]
        (eligibleCols [("a", some [1, 2]), ("b", some [5, 7])]
          [("a", [1, 2]), ("b", [5, 7])]) = some c ∧
      subCol [("a", [1, 2]), ("b", [5, 7])] [0, 1] c = some vc ∧
      (∃ hj : argminQ [1 / 2, 2] <
          (eligibleCols [("a", some [1, 2]), ("b", some [5, 7])]
            [("a", [1, 2]), ("b", [5, 7])]).length,
        (eligibleCols [("a", some [1, 2]), ("b", some [5, 7])]
          [("a", [1, 2]), ("b", [5, 7])]).get ⟨argminQ [1 / 2, 2], hj⟩ = c ∧
        (∀ i (hi : i < argminQ [1 / 2, 2]), ∀ vi,
          subCol [("a", [1, 2]), ("b", [5, 7])] [0, 1]
            ((eligibleCols [("a", some [1, 2]), ("b", some [5, 7])]
              [("a", [1, 2]), ("b", [5, 7])]).get
                ⟨i, Nat.lt_trans hi hj⟩) = some vi →
          svar vc < svar vi)) ∧
      (∀ d ∈ eligibleCols [("a", some [1, 2]), ("b", some [5, 7])]
          [("a", [1, 2]), ("b", [5, 7])], ∀ vd,
        subCol [("a", [1, 2]), ("b", [5, 7])] [0, 1] d = some vd →
          svar vc ≤ svar vd) ∧
      (∀ d ∈ eligibleCols [("a", some [1, 2]), ("b", some [5, 7])]
          [("a", [1, 2]), ("b", [5, 7])], ∀ vd,
        subCol [("a", [1, 2]), ("b", [5, 7])] [0, 1] d = some vd →
          svar vd = 0 → svar vc = 0) :=
  C2_minimal_std_selection [("a", some [1, 2]), ("b", some [5, 7])]
    [("a", [1, 2]), ("b", [5, 7])] [0, 1] [1 / 2, 2]
    (by decide)
    (by norm_num +decide [omapM, subCol, alookup, svar, qmean, eligibleCols,
      intersect1d, rawNumericCols, strLeB, lexLe, List.insertionSort,
      List.orderedInsert])
    (by decide)

/-- C2 (counterexample): on a tie the code selects the first column of
the SORTED eligible set (`np.intersect1d` sorts), here `a`, while the
canonical order the claim describes (cleaned schema order intersected
with the raw numeric columns) starts with `b`; selecting over that
order yields `b` ≠ `a`. -/
theorem C2_counterexample_sorted_tiebreak :
    eligibleCols [("a", some [0, 0]), ("b", some [0, 0])]
      [("b", [1, 1]), ("a", [2, 2])] = ["a", "b"] ∧
    specCanonicalOrder [("a", some [0, 0]), ("b", some [0, 0])]
      [("b", [1, 1]), ("a", [2, 2])] = ["b", "a"] ∧
    svar [2, 2] = svar [1, 1] ∧
    get_minimal_std [("b", [1, 1]), ("a", [2, 2])] [0, 1]
      (eligibleCols [("a", some [0, 0]), ("b", some [0, 0])]
        [("b", [1, 1]), ("a", [2, 2])]) = some "a" ∧
    get_minimal_std [("b", [1, 1]), ("a", [2, 2])] [0, 1]
      (specCanonicalOrder [("a", some [0, 0]), ("b", some [0, 0])]
        [("b", [1, 1]), ("a", [2, 2])]) = some "b" ∧
    ("a" : String) ≠ "b" := by
  refine ⟨by decide, by decide, by norm_num [svar, qmean], ?_, ?_, by decide⟩
  · norm_num +decide [get_minimal_std, omapM, subCol, alookup, svar, qmean,
      eligibleCols, intersect1d, rawNumericCols, strLeB, lexLe,
      List.insertionSort, List.orderedInsert, argminQ, argminAux]
  · norm_num +decide [get_minimal_std, omapM, subCol, alookup, svar, qmean,
      specCanonicalOrder, rawNumericCols, argminQ, argminAux]

/-! ### Cluster descriptions (model.py) -/

/-- The holder loop of `compute_cluster_descriptions`: per member node,
accumulate the total size `N` and a per-label size sum in the
insertion-ordered `holder` dict (`none` models the KeyError of a node
missing from the node description dict). -/
def chAux (ndesc : List (String × String × ℕ)) :
    List String → List (String × ℕ) → ℕ → Option (List (String × ℕ) × ℕ)
  | [], holder, n => some (holder, n)
  | nm :: rest, holder, n =>
      match alookup nm ndesc with
      | none => none
      | some d =>
          chAux ndesc rest
            (dictInsert d.1 ((alookup d.1 holder).getD 0 + d.2) holder)
            (n + d.2)

/-- The density map of one cluster:
`{label: np.round(size / N, 2) for label, size in holder.items()}`,
together with the running total `N`. -/
def clusterDensity (ndesc : List (String × String × ℕ))
    (nodes : List String) : Option (List (String × ℚ) × ℕ) :=
  (chAux ndesc nodes [] 0).map
    (fun hn => (hn.1.map (fun ls => (ls.1, round2 ((ls.2 : ℚ) / (hn.2 : ℚ)))),
      hn.2))

/-- `Model.compute_cluster_descriptions`: per component the density map
and the recorded cluster size, then the unclustered entry under -1 with
the single density `{minimal-std label: 1.0}`. -/
def computeClusterDescriptions (components : List (ℤ × List String))
    (ndesc : List (String × String × ℕ)) (clusterSizes : List (ℤ × ℕ))
    (raw : RawDF) (clean : CleanDF) (uncl : List ℕ) :
    Option (List (ℤ × (List (String × ℚ) × ℕ))) :=
  (omapM (fun c => (clusterDensity ndesc c.2).bind
      (fun dn => (alookup c.1 clusterSizes).map (fun sz => (c.1, (dn.1, sz)))))
    components).bind
    fun descs => (get_minimal_std clean uncl (eligibleCols raw clean)).bind
      fun lbl => (alookup (-1 : ℤ) clusterSizes).map
        fun sz => dictInsert (-1) ([(lbl, (1 : ℚ))], sz) descs

/-- The labelled node descriptions of a member node list. -/
def memberDescs (ndesc : List (String × String × ℕ))
    (nodes : List String) : List (String × ℕ) :=
  nodes.filterMap (fun nm => alookup nm ndesc)

theorem sum_snd_dictInsert_add (k : String) (δ : ℕ) (l : List (String × ℕ)) :
    ((dictInsert k ((alookup k l).getD 0 + δ) l).map Prod.snd).sum =
      (l.map Prod.snd).sum + δ := by
  induction l with
  | nil => simp [dictInsert, alookup]
  | cons hd tl ih =>
      obtain ⟨k₁, v₁⟩ := hd
      by_cases h₁ : k₁ = k
      · subst h₁
        rw [dictInsert_cons_pos]
        simp [alookup]
        omega
      · rw [dictInsert_cons_neg _ _ _ _ _ h₁]
        have : alookup k ((k₁, v₁) :: tl) = alookup k tl := by
          simp [alookup, h₁]
        rw [this]
        simp only [List.map_cons, List.sum_cons, ih]
        omega

theorem chAux_spec (ndesc : List (String × String × ℕ))
    (nodes : List String) (holder : List (String × ℕ)) (n : ℕ)
    (hfound : ∀ nm ∈ nodes, (alookup nm ndesc).isSome) :
    ∃ holder₂,
      chAux ndesc nodes holder n =
        some (holder₂, n + ((memberDescs ndesc nodes).map Prod.snd).sum) ∧
      (∀ lbl, (alookup lbl holder₂).getD 0 = (alookup lbl holder).getD 0 +
        (((memberDescs ndesc nodes).filter (fun d => d.1 = lbl)).map
          Prod.snd).sum) ∧
      (∀ lbl, (alookup lbl holder₂).isSome ↔
        ((alookup lbl holder).isSome ∨
          lbl ∈ (memberDescs ndesc nodes).map Prod.fst)) ∧
      ((holder₂.map Prod.snd).sum =
        (holder.map Prod.snd).sum +
          ((memberDescs ndesc nodes).map Prod.snd).sum) := by
  induction nodes generalizing holder n with
  | nil =>
      refine ⟨holder, ?_, ?_, ?_, ?_⟩ <;> simp [chAux, memberDescs]
  | cons nm rest ih =>
      have hnm := hfound nm (List.mem_cons_self _ _)
      obtain ⟨d, hd⟩ := Option.isSome_iff_exists.mp hnm
      have hmd : memberDescs ndesc (nm :: rest) = d :: memberDescs ndesc rest := by
        unfold memberDescs
        rw [List.filterMap_cons, hd]
      obtain ⟨holder₂, hrun, hgetD, hsome, hsum⟩ := ih
        (dictInsert d.1 ((alookup d.1 holder).getD 0 + d.2) holder) (n + d.2)
        (fun x hx => hfound x (List.mem_cons_of_mem _ hx))
      refine ⟨holder₂, ?_, ?_, ?_, ?_⟩
      · rw [chAux, hd]
        dsimp only
        rw [hrun, hmd]
        simp only [List.map_cons, List.sum_cons, Option.some.injEq,
          Prod.mk.injEq]
        exact ⟨trivial, by omega⟩
      · intro lbl
        rw [hgetD lbl, hmd]
        by_cases hl : d.1 = lbl
        · subst hl
          rw [alookup_dictInsert_self, Option.getD_some]
          rw [List.filter_cons, if_pos (by simp)]
          simp only [List.map_cons, List.sum_cons]
          omega
        · rw [alookup_dictInsert_ne d.1 lbl _ holder hl]
          rw [List.filter_cons, if_neg (by simpa using hl)]
      · intro lbl
        rw [hsome lbl, hmd]
        by_cases hl : d.1 = lbl
        · subst hl
          rw [alookup_dictInsert_self]
          simp
        · rw [alookup_dictInsert_ne d.1 lbl _ holder hl]
          simp only [List.map_cons, List.mem_cons]
          constructor
          · rintro (h | h)
            · exact Or.inl h
            · exact Or.inr (Or.inr h)
          · rintro (h | h | h)
            · exact Or.inl h
            · exact absurd h.symm hl
            · exact Or.inr h
      · rw [hsum, hmd]
        simp only [List.map_cons, List.sum_cons]
        rw [sum_snd_dictInsert_add]
        omega

theorem alookup_map_snd {α β γ : Type} [DecidableEq α] (g : β → γ) (k : α)
    (l : List (α × β)) :
    alookup k (l.map (fun e => (e.1, g e.2))) = (alookup k l).map g := by
  induction l with
  | nil => simp [alookup]
  | cons hd tl ih =>
      obtain ⟨k₁, v₁⟩ := hd
      by_cases h₁ : k₁ = k <;> simp [alookup, h₁, ih]

theorem abs_list_sum_le (l : List ℚ) (f g : ℚ → ℚ) :
    |(l.map f).sum - (l.map g).sum| ≤ (l.map (fun x => |f x - g x|)).sum := by
  induction l with
  | nil => simp
  | cons x rest ih =>
      simp only [List.map_cons, List.sum_cons]
      calc |f x + (rest.map f).sum - (g x + (rest.map g).sum)|
          = |(f x - g x) + ((rest.map f).sum - (rest.map g).sum)| := by ring_nf
        _ ≤ |f x - g x| + |(rest.map f).sum - (rest.map g).sum| := abs_add _ _
        _ ≤ |f x - g x| + (rest.map (fun x => |f x - g x|)).sum := by linarith

theorem list_cast_sum (l : List ℕ) :
    ((l.map (fun (s : ℕ) => (s : ℚ))).sum) = ((l.sum : ℕ) : ℚ) := by
  induction l with
  | nil => simp
  | cons x rest ih =>
      simp only [List.map_cons, List.sum_cons, ih]
      push_cast
      ring

theorem list_sum_div (l : List ℚ) (c : ℚ) :
    (l.map (fun x => x / c)).sum = l.sum / c := by
  induction l with
  | nil => simp
  | cons x rest ih =>
      simp only [List.map_cons, List.sum_cons, ih]
      ring

theorem sum_abs_round2_le (l : List ℚ) (c : ℚ) :
    (l.map (fun x => |round2 (x / c) - x / c|)).sum ≤
      (l.length : ℚ) * (1 / 200) := by
  induction l with
  | nil => simp
  | cons x rest ih =>
      simp only [List.map_cons, List.sum_cons, List.length_cons]
      push_cast
      have h₁ := abs_round2_sub_le (x / c)
      linarith

theorem sum_round2_div_bound (vals : List ℕ) (N : ℕ) (hN : 0 < N)
    (hsum : vals.sum = N) :
    |((vals.map (fun (s : ℕ) => round2 ((s : ℚ) / (N : ℚ)))).sum) - 1| ≤
      (vals.length : ℚ) / 200 := by
  have hNq : (0 : ℚ) < (N : ℚ) := by exact_mod_cast hN
  have hq : (vals.map (fun (s : ℕ) => round2 ((s : ℚ) / (N : ℚ)))).sum =
      ((vals.map (fun (s : ℕ) => (s : ℚ))).map (fun x => round2 (x / (N : ℚ)))).sum := by
    rw [List.map_map]
    rfl
  have hdiv : ((vals.map (fun (s : ℕ) => (s : ℚ))).map (fun x => x / (N : ℚ))).sum = 1 := by
    rw [list_sum_div, list_cast_sum, hsum]
    field_simp
  have hb := abs_list_sum_le (vals.map (fun (s : ℕ) => (s : ℚ)))
    (fun x => round2 (x / (N : ℚ))) (fun x => x / (N : ℚ))
  have hc := sum_abs_round2_le (vals.map (fun (s : ℕ) => (s : ℚ))) (N : ℚ)
  rw [hq, ← hdiv]
  have hlen : ((vals.map (fun (s : ℕ) => (s : ℚ))).length : ℚ) = (vals.length : ℚ) := by
    rw [List.length_map]
  calc |((vals.map (fun (s : ℕ) => (s : ℚ))).map (fun x => round2 (x / (N : ℚ)))).sum -
        ((vals.map (fun (s : ℕ) => (s : ℚ))).map (fun x => x / (N : ℚ))).sum|
      ≤ ((vals.map (fun (s : ℕ) => (s : ℚ))).map
          (fun x => |round2 (x / (N : ℚ)) - x / (N : ℚ)|)).sum := hb
    _ ≤ ((vals.map (fun (s : ℕ) => (s : ℚ))).length : ℚ) * (1 / 200) := hc
    _ = (vals.length : ℚ) / 200 := by rw [hlen]; ring

/-- C3 (amended): each density value of a cluster is
`round(S_label / N_total, 2)` with `S_label` the summed sizes of member
nodes carrying that label and `N_total` the un-deduplicated sum of
member node sizes; consequently the density values sum to 1 within
`0.005 × L` where `L` is the number of distinct labels — not within the
fixed 0.01 the claim states (see the counterexample with L = 4). -/
theorem C3_cluster_density_formula (ndesc : List (String × String × ℕ))
    (nodes : List String)
    (hfound : ∀ nm ∈ nodes, (alookup nm ndesc).isSome)
    (density : List (String × ℚ)) (Ntot : ℕ)
    (hden : clusterDensity ndesc nodes = some (density, Ntot))
    (hpos : 0 < Ntot) :
    Ntot = ((memberDescs ndesc nodes).map Prod.snd).sum ∧
    (∀ lbl q, alookup lbl density = some q →
      q = round2 ((((((memberDescs ndesc nodes).filter
        (fun d => d.1 = lbl)).map Prod.snd).sum : ℕ) : ℚ) / (Ntot : ℚ))) ∧
    |((density.map Prod.snd).sum) - 1| ≤ (density.length : ℚ) / 200 := by
  obtain ⟨holder₂, hrun, hgetD, hsome, hsum⟩ := chAux_spec ndesc nodes [] 0 hfound
  unfold clusterDensity at hden
  rw [hrun] at hden
  simp only [Option.map_some', Nat.zero_add, Option.some.injEq,
    Prod.mk.injEq] at hden
  obtain ⟨hdeq, hNeq⟩ := hden
  have hN : Ntot = ((memberDescs ndesc nodes).map Prod.snd).sum := hNeq.symm
  refine ⟨hN, ?_, ?_⟩
  · intro lbl q hq
    rw [← hdeq] at hq
    have hmap : alookup lbl (holder₂.map (fun ls =>
        (ls.1, round2 ((ls.2 : ℚ) / (((memberDescs ndesc nodes).map
          Prod.snd).sum : ℚ))))) =
        (alookup lbl holder₂).map (fun (s : ℕ) =>
          round2 ((s : ℚ) / (((memberDescs ndesc nodes).map
            Prod.snd).sum : ℚ))) :=
      alookup_map_snd (fun (s : ℕ) => round2 ((s : ℚ) /
        (((memberDescs ndesc nodes).map Prod.snd).sum : ℚ))) lbl holder₂
    rw [hmap] at hq
    cases hh : alookup lbl holder₂ with
    | none => rw [hh] at hq; simp at hq
    | some s =>
        rw [hh] at hq
        simp only [Option.map_some'] at hq
        have hs : s = (((memberDescs ndesc nodes).filter
            (fun d => d.1 = lbl)).map Prod.snd).sum := by
          have := hgetD lbl
          rw [hh] at this
          simpa [alookup] using this
        have hq₂ : q = round2 ((s : ℚ) /
            ((((memberDescs ndesc nodes).map Prod.snd).sum : ℕ) : ℚ)) :=
          (Option.some.inj hq).symm
        rw [hq₂, hs, hN]
  · have hdm : density.map Prod.snd = (holder₂.map Prod.snd).map
        (fun (s : ℕ) => round2 ((s : ℚ) /
          ((((memberDescs ndesc nodes).map Prod.snd).sum : ℕ) : ℚ))) := by
      rw [← hdeq, List.map_map, List.map_map]
      rfl
    have hdl : density.length = (holder₂.map Prod.snd).length := by
      rw [← hdeq]
      simp
    have hvs : (holder₂.map Prod.snd).sum =
        ((memberDescs ndesc nodes).map Prod.snd).sum := by
      simpa [alookup] using hsum
    rw [hdm, hdl]
    exact sum_round2_div_bound (holder₂.map Prod.snd)
      ((memberDescs ndesc nodes).map Prod.snd).sum (hN ▸ hpos) hvs

/-- Witness for `C3_cluster_density_formula` on a one-node cluster. -/
theorem C3_cluster_density_formula_witness :
    2 = ((memberDescs [("n1", ("a", 2))] ["n1"]).map Prod.snd).sum ∧
    (∀ lbl q, alookup lbl [("a", (1 : ℚ))] = some q →
      q = round2 ((((((memberDescs [("n1", ("a", 2))] ["n1"]).filter
        (fun d => d.1 = lbl)).map Prod.snd).sum : ℕ) : ℚ) / ((2 : ℕ) : ℚ))) ∧
    |(([("a", (1 : ℚ))].map Prod.snd).sum) - 1| ≤
      (([("a", (1 : ℚ))].length : ℚ)) / 200 :=
  C3_cluster_density_formula [("n1", ("a", 2))] ["n1"] (by decide)
    [("a", (1 : ℚ))] 2
    (by norm_num +decide [clusterDensity, chAux, alookup, dictInsert,
      round2, rhe, memberDescs])
    (by norm_num)

/-- C3 (counterexample): a cluster of four pairwise disjoint nodes with
sizes 1, 1, 1, 5 and four distinct labels has densities
0.12, 0.12, 0.12, 0.62 (each 1/8 rounds half-to-even to 0.12 and 5/8 to
0.62), summing to 0.98 — off by 0.02, outside the claimed 0.01
tolerance. -/
theorem C3_counterexample_rounding_drift :
    List.Pairwise (fun e₁ e₂ => ∀ i ∈ e₁.2, i ∉ e₂.2)
      ([("n1", [0]), ("n2", [1]), ("n3", [2]), ("n4", [3, 4, 5, 6, 7])] :
        List (String × List ℕ)) ∧
    ([("n1", ("a", 1)), ("n2", ("b", 1)), ("n3", ("c", 1)),
      ("n4", ("d", 5))] : List (String × String × ℕ)).map (fun e => e.2.2) =
      ([("n1", [0]), ("n2", [1]), ("n3", [2]), ("n4", [3, 4, 5, 6, 7])] :
        List (String × List ℕ)).map (fun e => e.2.length) ∧
    clusterDensity [("n1", ("a", 1)), ("n2", ("b", 1)), ("n3", ("c", 1)),
      ("n4", ("d", 5))] ["n1", "n2", "n3", "n4"] =
      some ([("a", 12 / 100), ("b", 12 / 100), ("c", 12 / 100),
        ("d", 62 / 100)], 8) ∧
    (([("a", (12 : ℚ) / 100), ("b", 12 / 100), ("c", 12 / 100),
      ("d", 62 / 100)].map Prod.snd).sum = 98 / 100) ∧
    ¬(|((98 : ℚ) / 100) - 1| ≤ 1 / 100) := by
  refine ⟨by decide, by decide, ?_, by norm_num, ?_⟩
  · have h18 : round2 (1 / 8) = 12 / 100 := by norm_num [round2, rhe]
    have h58 : round2 (5 / 8) = 62 / 100 := by norm_num [round2, rhe]
    norm_num +decide [clusterDensity, chAux, alookup, dictInsert, h18, h58]
  · rw [show ((98 : ℚ) / 100) - 1 = -(2 / 100) by norm_num, abs_neg,
      abs_of_nonneg (by norm_num : (0 : ℚ) ≤ 2 / 100)]
    norm_num

/- Section C4: `Model.zscores` and `Model.group_identifiers`
(model.py lines 171-199).  The per-item z-score table
`_define_zscore_df(self)` is embedded as a list of rows
`(cluster id, z-score per data column)`, the data columns being given by
name with the values of each row aligned positionally.  The iteration of
the column loop over the pandas `cluster_IDs` column itself is omitted
from the embedding: its whole body is skipped by the
`column != "cluster_IDs"` guard and `counter` is re-initialised for
every column, so that iteration has no observable effect. -/

/-- Positional element access, `l[j]` as an `Option`. -/
def oget {α : Type} : List α → ℕ → Option α
  | [], _ => none
  | x :: _, 0 => some x
  | _ :: xs, j + 1 => oget xs j

/-- Column `j` of the rows of the per-item z-score table that belong to
cluster `cid`: `test[column]` for
`test = zdf[zdf["cluster_IDs"] == cid]`. -/
def clusterColVals (zdf : List (ℤ × List ℚ)) (cid : ℤ) (j : ℕ) : List ℚ :=
  (zdf.filter (fun r => r.1 = cid)).filterMap (fun r => oget r.2 j)

/-- Distinct cluster ids of the per-item z-score table in ascending
order: the group keys of `groupby(["cluster_IDs"])`, which sorts them. -/
def clusterIds (zdf : List (ℤ × List ℚ)) : List ℤ :=
  List.insertionSort (fun a b => a ≤ b) (zdf.map Prod.fst).dedup

/-- `Model.zscores` (model.py lines 171-177):
`_define_zscore_df(self).groupby(["cluster_IDs"]).mean().reset_index()`,
one row per distinct cluster id, in ascending id order, holding the mean
of every data column over that cluster's rows. -/
def zscoresTable (ncols : ℕ) (zdf : List (ℤ × List ℚ)) :
    List (ℤ × List ℚ) :=
  (clusterIds zdf).map (fun cid =>
    (cid, (List.range ncols).map (fun i => qmean (clusterColVals zdf cid i))))

/-- Boolean value of
`abs(test[column].std() / test[column].mean()) <= std_threshold` over the
exact rationals: the `ddof = 1` standard deviation is `NaN` unless the
cluster holds at least two rows, the quotient is `NaN` or infinite when
the mean is `0`, any comparison against `NaN` is `False`, and otherwise
`sqrt(svar)/|mean| ≤ st` iff `0 ≤ st` and `svar ≤ st^2 * mean^2`. -/
def ratioTestB (st : ℚ) (vals : List ℚ) : Bool :=
  decide (2 ≤ vals.length) && decide (¬ qmean vals = 0) &&
    decide (0 ≤ st) && decide (svar vals ≤ st ^ 2 * qmean vals ^ 2)

/-- `pg_identifiers[counter].append(column)`: append to the entry at key
`counter`; `none` is the `KeyError` raised when the key is absent. -/
def appendAt (d : List (ℤ × List String)) (k : ℤ) (c : String) :
    Option (List (ℤ × List String)) :=
  match d with
  | [] => none
  | (k₂, v) :: rest =>
    if k₂ = k then some ((k₂, v ++ [c]) :: rest)
    else (appendAt rest k c).map (fun r => (k₂, v) :: r)

/-- Total form used to state what `appendAt` does on a present key:
append `c` to every entry whose key is `k` (at most one under the nodup
keys of `group_identifiers`). -/
def markAt (d : List (ℤ × List String)) (k : ℤ) (c : String) :
    List (ℤ × List String) :=
  d.map (fun e => if e.1 = k then (e.1, e.2 ++ [c]) else e)

/-- Inner loop `for value in self.zscores[column]` of
`Model.group_identifiers` for the data column `c` sitting at position
`j`: `counter` starts at `-1` and increments once per z-score row; the
row's z-score is tested against `zscore_threshold`, but the std/mean
ratio test runs over the rows of cluster `counter`, not over the row's
own cluster. -/
def giColAux (zdf : List (ℤ × List ℚ)) (zth st : ℚ) (c : String) (j : ℕ) :
    List (ℤ × List ℚ) → ℤ → List (ℤ × List String) →
      Option (List (ℤ × List String))
  | [], _, d => some d
  | (_, vals) :: rest, counter, d =>
    match oget vals j with
    | none => none
    | some v =>
      if zth ≤ |v| then
        if ratioTestB st (clusterColVals zdf counter j) then
          match appendAt d counter c with
          | none => none
          | some d₂ => giColAux zdf zth st c j rest (counter + 1) d₂
        else giColAux zdf zth st c j rest (counter + 1) d
      else giColAux zdf zth st c j rest (counter + 1) d

/-- Outer loop `for column in self.zscores.columns` over the data
columns, each paired with its position. -/
def giColsAux (zdf : List (ℤ × List ℚ)) (zt : List (ℤ × List ℚ))
    (zth st : ℚ) :
    List (ℕ × String) → List (ℤ × List String) →
      Option (List (ℤ × List String))
  | [], d => some d
  | (j, c) :: rest, d =>
    match giColAux zdf zth st c j zt (-1) d with
    | none => none
    | some d₂ => giColsAux zdf zt zth st rest d₂

/-- Python `range(lo, lo + n)` over the integers. -/
def intRange (lo : ℤ) (n : ℕ) : List ℤ :=
  (List.range n).map (fun (i : ℕ) => lo + (i : ℤ))

/-- Column names paired with their positions, starting at `i`. -/
def enumCols (i : ℕ) : List String → List (ℕ × String)
  | [] => []
  | c :: rest => (i, c) :: enumCols (i + 1) rest

/-- `int(self.zscores["cluster_IDs"].max())`: the greatest observed
cluster id; `none` is the `ValueError` of `int(NaN)` when the table is
empty. -/
def idsMax (zdf : List (ℤ × List ℚ)) : Option ℤ :=
  match zdf.map Prod.fst with
  | [] => none
  | x :: xs => some (xs.foldl max x)

/-- `Model.group_identifiers(zscore_threshold, std_threshold)`
(model.py lines 179-199): build the dictionary with an empty list for
every key in `range(-1, int(zscores["cluster_IDs"].max()) + 1)`, then
run the column/row loops. -/
def groupIdentifiers (cols : List String) (zdf : List (ℤ × List ℚ))
    (zth st : ℚ) : Option (List (ℤ × List String)) :=
  match idsMax zdf with
  | none => none
  | some m =>
    giColsAux zdf (zscoresTable cols.length zdf) zth st (enumCols 0 cols)
      ((intRange (-1) (m + 2).toNat).map (fun k => (k, ([] : List String))))

/-- The claim's marking criterion for cluster `cid` and the data column
at position `j`: the absolute mean z-score of the cluster clears
`zscore_threshold`, and the std/mean ratio test within the cluster
passes. -/
def identifierCrit (zdf : List (ℤ × List ℚ)) (zth st : ℚ) (cid : ℤ)
    (j : ℕ) : Bool :=
  decide (zth ≤ |qmean (clusterColVals zdf cid j)|) &&
    ratioTestB st (clusterColVals zdf cid j)

theorem oget_map {α β : Type} (f : α → β) :
    ∀ (l : List α) (j : ℕ), oget (l.map f) j = (oget l j).map f := by
  intro l
  induction l with
  | nil => intro j; cases j <;> rfl
  | cons x xs ih =>
    intro j
    cases j with
    | zero => rfl
    | succ j =>
      simp only [List.map_cons, oget]
      exact ih j

theorem oget_range :
    ∀ (n j : ℕ), j < n → oget (List.range n) j = some j := by
  intro n
  induction n with
  | zero => intro j hj; exact absurd hj (Nat.not_lt_zero j)
  | succ n ih =>
    intro j hj
    rw [List.range_succ_eq_map]
    cases j with
    | zero => rfl
    | succ j =>
      simp only [oget]
      rw [oget_map, ih j (Nat.lt_of_succ_lt_succ hj)]
      rfl

theorem mem_intRange {lo : ℤ} {n : ℕ} {x : ℤ} :
    x ∈ intRange lo n ↔ lo ≤ x ∧ x < lo + n := by
  simp only [intRange, List.mem_map, List.mem_range]
  constructor
  · rintro ⟨i, hi, rfl⟩
    omega
  · rintro ⟨h₁, h₂⟩
    exact ⟨(x - lo).toNat, by omega, by omega⟩

theorem intRange_nodup (lo : ℤ) (n : ℕ) : (intRange lo n).Nodup := by
  refine List.Nodup.map ?_ (List.nodup_range n)
  intro a b hab
  dsimp only at hab
  omega

theorem intRange_succ (lo : ℤ) (n : ℕ) :
    intRange lo (n + 1) = lo :: intRange (lo + 1) n := by
  simp only [intRange, List.range_succ_eq_map, List.map_cons, Nat.cast_zero,
    add_zero, List.map_map]
  refine congrArg (List.cons lo) ?_
  refine List.map_congr_left ?_
  intro i _
  simp only [Function.comp_apply]
  push_cast
  ring

theorem map_form_keys (K : List ℤ) (g : ℤ → List String) :
    (K.map (fun i => (i, g i))).map Prod.fst = K := by
  rw [List.map_map]
  conv_rhs => rw [← List.map_id K]
  refine List.map_congr_left ?_
  intro i _
  rfl

theorem markAt_keys (d : List (ℤ × List String)) (k : ℤ) (c : String) :
    (markAt d k c).map Prod.fst = d.map Prod.fst := by
  simp only [markAt, List.map_map]
  refine List.map_congr_left ?_
  intro e _
  by_cases h : e.1 = k <;> simp [Function.comp, h]

theorem markAt_not_mem (d : List (ℤ × List String)) (k : ℤ) (c : String)
    (h : k ∉ d.map Prod.fst) : markAt d k c = d := by
  induction d with
  | nil => rfl
  | cons e rest ih =>
    simp only [List.map_cons, List.mem_cons, not_or] at h
    simp only [markAt, List.map_cons]
    rw [if_neg (fun he => h.1 he.symm)]
    exact congrArg (List.cons e) (ih h.2)

theorem appendAt_eq_markAt :
    ∀ (d : List (ℤ × List String)) (k : ℤ) (c : String),
      (d.map Prod.fst).Nodup → k ∈ d.map Prod.fst →
      appendAt d k c = some (markAt d k c) := by
  intro d
  induction d with
  | nil =>
    intro k c _ hmem
    simp at hmem
  | cons e rest ih =>
    intro k c hnd hmem
    obtain ⟨k₂, v⟩ := e
    simp only [List.map_cons, List.nodup_cons] at hnd
    simp only [List.map_cons, List.mem_cons] at hmem
    by_cases hk : k₂ = k
    · subst hk
      have hrest := markAt_not_mem rest k₂ c hnd.1
      simp only [markAt] at hrest
      simp [appendAt, markAt, hrest]
    · have hkr : k ∈ List.map Prod.fst rest := by
        rcases hmem with h | h
        · exact absurd h.symm hk
        · exact h
      simp only [appendAt, if_neg hk, ih k c hnd.2 hkr, Option.map_some',
        markAt, List.map_cons]

theorem markAt_map_form (K : List ℤ) (g : ℤ → List String) (cid : ℤ)
    (c : String) :
    markAt (K.map (fun i => (i, g i))) cid c =
      K.map (fun i => (i, if i = cid then g i ++ [c] else g i)) := by
  simp only [markAt, List.map_map]
  refine List.map_congr_left ?_
  intro i _
  by_cases hi : i = cid <;> simp [Function.comp, hi]

theorem foldl_markAt_map (zdf : List (ℤ × List ℚ)) (zth st : ℚ) (j : ℕ)
    (c : String) (K : List ℤ) :
    ∀ (L : List ℤ) (g : ℤ → List String), L.Nodup →
      L.foldl (fun acc cid =>
          if identifierCrit zdf zth st cid j then markAt acc cid c else acc)
        (K.map (fun i => (i, g i))) =
      K.map (fun i =>
        (i, if i ∈ L ∧ identifierCrit zdf zth st i j = true then g i ++ [c]
          else g i)) := by
  intro L
  induction L with
  | nil =>
    intro g _
    simp
  | cons cid rest ih =>
    intro g hnd
    have hcid : cid ∉ rest := (List.nodup_cons.mp hnd).1
    simp only [List.foldl_cons]
    by_cases hp : identifierCrit zdf zth st cid j = true
    · rw [if_pos hp, markAt_map_form,
        ih (fun i => if i = cid then g i ++ [c] else g i)
          (List.nodup_cons.mp hnd).2]
      refine List.map_congr_left ?_
      intro i _
      by_cases hic : i = cid
      · subst hic
        simp [hp, hcid, List.mem_cons]
      · simp [hic, List.mem_cons]
    · rw [if_neg hp, ih g (List.nodup_cons.mp hnd).2]
      refine List.map_congr_left ?_
      intro i _
      by_cases hic : i = cid
      · subst hic
        simp [hp, List.mem_cons]
      · simp [hic, List.mem_cons]

theorem enumCols_fst_lt :
    ∀ (xs : List String) (i : ℕ) (p : ℕ × String),
      p ∈ enumCols i xs → p.1 < i + xs.length := by
  intro xs
  induction xs with
  | nil =>
    intro i p hp
    simp [enumCols] at hp
  | cons x rest ih =>
    intro i p hp
    simp only [enumCols, List.mem_cons] at hp
    rcases hp with h | h
    · subst h
      simp only [List.length_cons]
      omega
    · have := ih (i + 1) p h
      simp only [List.length_cons]
      omega

theorem giColAux_aligned (zdf : List (ℤ × List ℚ)) (zth st : ℚ)
    (c : String) (j ncols : ℕ) (hj : j < ncols) :
    ∀ (k : ℕ) (c₀ : ℤ) (d : List (ℤ × List String)),
      (d.map Prod.fst).Nodup →
      (∀ t : ℕ, t < k → (c₀ + (t : ℤ)) ∈ d.map Prod.fst) →
      giColAux zdf zth st c j
        ((intRange c₀ k).map (fun cid =>
          (cid, (List.range ncols).map
            (fun i => qmean (clusterColVals zdf cid i))))) c₀ d =
      some ((intRange c₀ k).foldl
        (fun acc cid =>
          if identifierCrit zdf zth st cid j then markAt acc cid c else acc)
        d) := by
  intro k
  induction k with
  | zero =>
    intro c₀ d _ _
    rfl
  | succ k ih =>
    intro c₀ d hnd hcov
    rw [intRange_succ]
    simp only [List.map_cons, List.foldl_cons, giColAux]
    rw [oget_map, oget_range ncols j hj]
    simp only [Option.map_some']
    by_cases hz : zth ≤ |qmean (clusterColVals zdf c₀ j)|
    · rw [if_pos hz]
      cases hr : ratioTestB st (clusterColVals zdf c₀ j) with
      | true =>
        rw [if_pos rfl]
        have hmem : c₀ ∈ d.map Prod.fst := by
          have h0 := hcov 0 (Nat.succ_pos k)
          simpa using h0
        rw [appendAt_eq_markAt d c₀ c hnd hmem]
        dsimp only
        have hcrit : identifierCrit zdf zth st c₀ j = true := by
          simp [identifierCrit, hz, hr]
        rw [if_pos hcrit]
        refine ih (c₀ + 1) (markAt d c₀ c) ?_ ?_
        · rw [markAt_keys]
          exact hnd
        · intro t ht
          rw [markAt_keys]
          have h2 := hcov (t + 1) (Nat.succ_lt_succ ht)
          have h3 : c₀ + 1 + (t : ℤ) = c₀ + ((t : ℕ) + 1 : ℕ) := by
            push_cast
            ring
          rw [h3]
          exact h2
      | false =>
        rw [if_neg (by simp)]
        have hcrit : identifierCrit zdf zth st c₀ j = false := by
          simp [identifierCrit, hr]
        rw [if_neg (by simp [hcrit])]
        refine ih (c₀ + 1) d hnd ?_
        intro t ht
        have h2 := hcov (t + 1) (Nat.succ_lt_succ ht)
        have h3 : c₀ + 1 + (t : ℤ) = c₀ + ((t : ℕ) + 1 : ℕ) := by
          push_cast
          ring
        rw [h3]
        exact h2
    · rw [if_neg hz]
      have hcrit : identifierCrit zdf zth st c₀ j = false := by
        simp [identifierCrit, hz]
      rw [if_neg (by simp [hcrit])]
      refine ih (c₀ + 1) d hnd ?_
      intro t ht
      have h2 := hcov (t + 1) (Nat.succ_lt_succ ht)
      have h3 : c₀ + 1 + (t : ℤ) = c₀ + ((t : ℕ) + 1 : ℕ) := by
        push_cast
        ring
      rw [h3]
      exact h2

theorem giColsAux_aligned (zdf : List (ℤ × List ℚ)) (zth st : ℚ)
    (ncols k : ℕ) :
    ∀ (ps : List (ℕ × String)) (g : ℤ → List String),
      (∀ p ∈ ps, p.1 < ncols) →
      giColsAux zdf
        ((intRange (-1) k).map (fun cid =>
          (cid, (List.range ncols).map
            (fun i => qmean (clusterColVals zdf cid i))))) zth st ps
        ((intRange (-1) k).map (fun i => (i, g i))) =
      some ((intRange (-1) k).map (fun i =>
        (i, g i ++ (ps.filter (fun p =>
          identifierCrit zdf zth st i p.1)).map Prod.snd))) := by
  intro ps
  induction ps with
  | nil =>
    intro g _
    simp [giColsAux]
  | cons p rest ih =>
    intro g hps
    obtain ⟨j, c⟩ := p
    have hj : j < ncols := hps (j, c) (List.mem_cons_self _ _)
    have hrun := giColAux_aligned zdf zth st c j ncols hj k (-1)
      ((intRange (-1) k).map (fun i => (i, g i)))
      (by rw [map_form_keys]; exact intRange_nodup (-1) k)
      (by
        intro t ht
        rw [map_form_keys, mem_intRange]
        omega)
    simp only [giColsAux, hrun]
    rw [foldl_markAt_map zdf zth st j c (intRange (-1) k) (intRange (-1) k) g
      (intRange_nodup (-1) k)]
    rw [ih (fun i =>
      if i ∈ intRange (-1) k ∧ identifierCrit zdf zth st i j = true
      then g i ++ [c] else g i)
      (fun q hq => hps q (List.mem_cons_of_mem _ hq))]
    refine congrArg some (List.map_congr_left ?_)
    intro i hi
    by_cases hc : identifierCrit zdf zth st i j = true
    · simp [hi, hc, List.filter_cons, List.append_assoc]
    · simp [hi, hc, List.filter_cons]

/-- C4: when the observed cluster ids are exactly the contiguous range
from `-1` to the maximum id (so the per-row `counter`, which starts at
`-1` and increments once per z-score row, agrees with each row's own
cluster id), `group_identifiers(zscore_threshold, std_threshold)` returns
the dictionary with one entry per cluster id from `-1` to the maximum
id, whose entry for a cluster lists exactly the data columns (in column
order) with `|mean z-score of the cluster| ≥ zscore_threshold` and
`|std/mean| ≤ std_threshold` within the cluster; looking any such
cluster id up yields that list.  Without the contiguity hypothesis the
counter misaligns and the marking criterion fails (see the
counterexample). -/
theorem C4_group_identifiers_marking (cols : List String)
    (zdf : List (ℤ × List ℚ)) (zth st : ℚ) (m : ℤ)
    (hmax : idsMax zdf = some m)
    (hcontig : clusterIds zdf = intRange (-1) (m + 2).toNat) :
    groupIdentifiers cols zdf zth st =
      some ((intRange (-1) (m + 2).toNat).map (fun cid =>
        (cid, ((enumCols 0 cols).filter (fun p =>
          identifierCrit zdf zth st cid p.1)).map Prod.snd))) ∧
    ∀ cid ∈ intRange (-1) (m + 2).toNat,
      alookup cid ((intRange (-1) (m + 2).toNat).map (fun cid₂ =>
        (cid₂, ((enumCols 0 cols).filter (fun p =>
          identifierCrit zdf zth st cid₂ p.1)).map Prod.snd))) =
      some (((enumCols 0 cols).filter (fun p =>
        identifierCrit zdf zth st cid p.1)).map Prod.snd) := by
  constructor
  · simp only [groupIdentifiers, hmax]
    have hzt : zscoresTable cols.length zdf =
        (intRange (-1) (m + 2).toNat).map (fun cid =>
          (cid, (List.range cols.length).map
            (fun i => qmean (clusterColVals zdf cid i)))) := by
      rw [zscoresTable, hcontig]
    rw [hzt]
    have hrun := giColsAux_aligned zdf zth st cols.length (m + 2).toNat
      (enumCols 0 cols) (fun _ => ([] : List String))
      (by
        intro p hp
        have := enumCols_fst_lt cols 0 p hp
        omega)
    simpa using hrun
  · intro cid hcid
    refine alookup_of_mem_nodup cid _ _ ?_ ?_
    · exact List.mem_map.mpr ⟨cid, hcid, rfl⟩
    · rw [map_form_keys]
      exact intRange_nodup _ _

/-- C4 (witness): a table with rows for clusters `-1` and `0` only —
contiguous ids, so the hypotheses of `C4_group_identifiers_marking`
hold by computation — at thresholds `1, 1`. -/
theorem C4_group_identifiers_marking_witness :
    idsMax [((-1 : ℤ), [(1 : ℚ)]), (-1, [1]), (0, [3]), (0, [3])] =
      some 0 ∧
    clusterIds [((-1 : ℤ), [(1 : ℚ)]), (-1, [1]), (0, [3]), (0, [3])] =
      intRange (-1) ((0 : ℤ) + 2).toNat ∧
    groupIdentifiers ["c"]
        [((-1 : ℤ), [(1 : ℚ)]), (-1, [1]), (0, [3]), (0, [3])] 1 1 =
      some ((intRange (-1) ((0 : ℤ) + 2).toNat).map (fun cid =>
        (cid, ((enumCols 0 ["c"]).filter (fun p =>
          identifierCrit [((-1 : ℤ), [(1 : ℚ)]), (-1, [1]), (0, [3]), (0, [3])]
            1 1 cid p.1)).map Prod.snd))) :=
  ⟨by decide, by decide,
    (C4_group_identifiers_marking ["c"]
      [((-1 : ℤ), [(1 : ℚ)]), (-1, [1]), (0, [3]), (0, [3])] 1 1 0
      (by decide) (by decide)).1⟩

/-- C4 (counterexample): a z-score table whose only observed cluster id
is `0` (no unclustered row `-1`).  Its single z-score row, belonging to
cluster `0`, is processed with `counter = -1`, so the std/mean ratio
test runs over the empty set of rows of cluster `-1` and fails
(`NaN` comparisons are `False`), and nothing is ever marked — although
the claim's criterion holds for cluster `0` and the column: the mean
z-score is `2 ≥ 1` and std/mean is `0 ≤ 1` within cluster `0`.  The
returned dictionary maps both `-1` and `0` to the empty list. -/
theorem C4_counterexample_counter_misalignment :
    groupIdentifiers ["c"] [((0 : ℤ), [(2 : ℚ)]), (0, [2])] 1 1 =
      some [(-1, []), (0, [])] ∧
    (1 : ℚ) ≤ |qmean (clusterColVals [((0 : ℤ), [(2 : ℚ)]), (0, [2])] 0 0)| ∧
    ratioTestB 1 (clusterColVals [((0 : ℤ), [(2 : ℚ)]), (0, [2])] 0 0) =
      true ∧
    alookup (0 : ℤ) [((-1 : ℤ), ([] : List String)), (0, [])] = some [] ∧
    "c" ∉ ([] : List String) := by
  have h4 : qmean (clusterColVals [((0 : ℤ), [(2 : ℚ)]), (0, [2])] 0 0)
      = 2 := by
    norm_num +decide [clusterColVals, qmean, oget, List.filter_cons,
      List.filterMap_cons]
  have h5 : ratioTestB 1
      (clusterColVals [((0 : ℤ), [(2 : ℚ)]), (0, [2])] (-1) 0) = false := by
    decide
  refine ⟨?_, ?_, ?_, by decide, by decide⟩
  · norm_num +decide [groupIdentifiers, idsMax, zscoresTable, clusterIds,
      intRange, enumCols, giColsAux, giColAux, oget, h4, h5,
      List.insertionSort, List.orderedInsert, List.dedup_cons_of_mem,
      List.dedup_cons_of_not_mem, List.dedup_nil, List.range_succ,
      List.range_zero]
  · rw [h4]
    norm_num
  · norm_num +decide [ratioTestB, h4, clusterColVals, qmean, svar, oget,
      List.filter_cons, List.filterMap_cons]

end Thema
